import Mathlib

/-!
Verification of `CRingBuffer` (src/inc/RingBuffer.h).

A shallow embedding of the class template `CRingBuffer<T>` and a verification
of its specification.

Modelling decisions.

* The object state is the record of the four data members.  `int` members are
  `Int`; the storage block `m_iBuffData` (a `T*` to `m_iBuffLength` slots) is a
  `List T` whose length is the number of allocated slots.
* `new T[n]` default-initialises the block.  For a class type that runs the
  default constructor of every slot, for a scalar type (`int`, `float`) it
  leaves the slots indeterminate.  What the block holds after the allocation
  is therefore an argument `init : Nat → T` of the two operations that allocate
  (the constructor and `reset`): slot `i` of the new block holds `init i`.
  Allocation itself is assumed to succeed.
* `m_iBuffData[i]` with `i` outside the block is undefined behaviour; the
  operations that index the block return `none` there.
* `assert` is taken as active (no `NDEBUG`): a failed assertion produces no
  object.
* `int` is 32 bits wide.  The increments in `putPostInc` / `getPostInc` run
  only after the access at the old cursor succeeded, so the cursor is below
  the number of slots and `cursor + 1` cannot leave the `int` range.  The
  difference in `getNumValuesInBuffer` can (the setters accept any `int`), so
  it is reduced to the 32-bit two's complement range explicitly.
-/

/-- State of a `CRingBuffer<T>` object: its four data members. -/
structure CRingBuffer (T : Type) where
  /-- Length of the internal buffer. -/
  m_iBuffLength : Int
  /-- Write cursor. -/
  m_iWriteInd : Int
  /-- Read cursor. -/
  m_iReadInd : Int
  /-- The storage block the pointer `m_iBuffData` owns. -/
  m_iBuffData : List T

/-- The block produced by `new T[n]`: `n` slots, slot `i` holding `init i`
(the outcome of default-initialisation, see the header comment). -/
def newArray {T : Type} (n : Int) (init : Nat → T) : List T :=
  (List.range n.toNat).map init

/-- Reduction of an integer to the range of a 32-bit two's complement `int`. -/
def wrapInt32 (x : Int) : Int :=
  (x + 2147483648) % 4294967296 - 2147483648

namespace CRingBuffer

variable {T : Type}

/-- The constructor `CRingBuffer(int iBufferLengthInSamples)` (lines 15-25):
members initialised to the length, `0`, `0`; the assertion
`iBufferLengthInSamples > 0`; then the allocation of the block. -/
def construct (iBufferLengthInSamples : Int) (init : Nat → T) :
    Option (CRingBuffer T) :=
  if iBufferLengthInSamples > 0 then
    some
      { m_iBuffLength := iBufferLengthInSamples
        m_iWriteInd := 0
        m_iReadInd := 0
        m_iBuffData := newArray iBufferLengthInSamples init }
  else
    none

/-- The method `put` (lines 50-53): `m_iBuffData[m_iWriteInd] = tNewValue`. -/
def put (b : CRingBuffer T) (tNewValue : T) : Option (CRingBuffer T) :=
  if 0 ≤ b.m_iWriteInd ∧ b.m_iWriteInd < b.m_iBuffData.length then
    some { b with m_iBuffData := b.m_iBuffData.set b.m_iWriteInd.toNat tNewValue }
  else
    none

/-- The method `putPostInc` (lines 37-44): `put`, then `m_iWriteInd++`, then
the cursor goes back to `0` when it has reached `m_iBuffLength`. -/
def putPostInc (b : CRingBuffer T) (tNewValue : T) : Option (CRingBuffer T) :=
  match put b tNewValue with
  | none => none
  | some b1 =>
    let b2 := { b1 with m_iWriteInd := b1.m_iWriteInd + 1 }
    if b2.m_iWriteInd ≥ b2.m_iBuffLength then
      some { b2 with m_iWriteInd := 0 }
    else
      some b2

/-- The method `get` (lines 71-74): `return m_iBuffData[m_iReadInd]`.  The
method is `const`, so there is no successor state. -/
def get (b : CRingBuffer T) : Option T :=
  if 0 ≤ b.m_iReadInd then b.m_iBuffData[b.m_iReadInd.toNat]? else none

/-- The method `getPostInc` (lines 58-66): `get`, then `m_iReadInd++`, then
the cursor goes back to `0` when it has reached `m_iBuffLength`; the value
read first is returned. -/
def getPostInc (b : CRingBuffer T) : Option (T × CRingBuffer T) :=
  match get b with
  | none => none
  | some atVal =>
    let b1 := { b with m_iReadInd := b.m_iReadInd + 1 }
    if b1.m_iReadInd ≥ b1.m_iBuffLength then
      some (atVal, { b1 with m_iReadInd := 0 })
    else
      some (atVal, b1)

/-- The method `reset` (lines 79-85): both cursors to `0`, the block deleted
and a new block of `m_iBuffLength` slots allocated. -/
def reset (b : CRingBuffer T) (init : Nat → T) : CRingBuffer T :=
  { b with
    m_iReadInd := 0
    m_iWriteInd := 0
    m_iBuffData := newArray b.m_iBuffLength init }

/-- The method `getWriteIdx` (lines 90-93). -/
def getWriteIdx (b : CRingBuffer T) : Int :=
  b.m_iWriteInd

/-- The method `setWriteIdx` (lines 99-102). -/
def setWriteIdx (b : CRingBuffer T) (iNewWriteIdx : Int) : CRingBuffer T :=
  { b with m_iWriteInd := iNewWriteIdx }

/-- The method `getReadIdx` (lines 107-110). -/
def getReadIdx (b : CRingBuffer T) : Int :=
  b.m_iReadInd

/-- The method `setReadIdx` (lines 116-119). -/
def setReadIdx (b : CRingBuffer T) (iNewReadIdx : Int) : CRingBuffer T :=
  { b with m_iReadInd := iNewReadIdx }

/-- The method `getNumValuesInBuffer` (lines 124-127):
`return m_iWriteInd - m_iReadInd`, an `int` subtraction. -/
def getNumValuesInBuffer (b : CRingBuffer T) : Int :=
  wrapInt32 (b.m_iWriteInd - b.m_iReadInd)

/-- The method `getLength` (lines 132-135). -/
def getLength (b : CRingBuffer T) : Int :=
  b.m_iBuffLength

/-- The data-model invariant of the specification: the block has exactly
`m_iBuffLength` slots, the length is positive, and both cursors index into the
block. -/
def WellFormed (b : CRingBuffer T) : Prop :=
  (b.m_iBuffData.length : Int) = b.m_iBuffLength ∧ 0 < b.m_iBuffLength ∧
    (0 ≤ b.m_iWriteInd ∧ b.m_iWriteInd < b.m_iBuffLength) ∧
    (0 ≤ b.m_iReadInd ∧ b.m_iReadInd < b.m_iBuffLength)

/-- A caller doing `putPostInc(v)` for each `v` of a list, in order. -/
def putPostIncAll : CRingBuffer T → List T → Option (CRingBuffer T)
  | b, [] => some b
  | b, v :: vs =>
    match putPostInc b v with
    | none => none
    | some b1 => putPostIncAll b1 vs

/-- A caller doing `getPostInc()` `n` times, collecting the values returned. -/
def getPostIncN : CRingBuffer T → Nat → Option (List T × CRingBuffer T)
  | b, 0 => some ([], b)
  | b, n + 1 =>
    match getPostInc b with
    | none => none
    | some (x, b1) =>
      match getPostIncN b1 n with
      | none => none
      | some (xs, b2) => some (x :: xs, b2)

/-- A call of one public method, with its arguments.  `reset` carries what
the block it allocates holds (see `newArray`). -/
inductive Call (T : Type) where
  | putPostInc (tNewValue : T)
  | put (tNewValue : T)
  | getPostInc
  | get
  | reset (init : Nat → T)
  | getWriteIdx
  | setWriteIdx (iNewWriteIdx : Int)
  | getReadIdx
  | setReadIdx (iNewReadIdx : Int)
  | getNumValuesInBuffer
  | getLength

/-- What a call returns: nothing (`void`), a `T`, or an `int`. -/
inductive Ret (T : Type) where
  | void
  | value (x : T)
  | int (i : Int)

/-- One call on an object: the value returned and the state after the call.
A `const` method returns the state it was called on. -/
def exec (b : CRingBuffer T) : Call T → Option (Ret T × CRingBuffer T)
  | Call.putPostInc v => (putPostInc b v).map fun b1 => (Ret.void, b1)
  | Call.put v => (put b v).map fun b1 => (Ret.void, b1)
  | Call.getPostInc => (getPostInc b).map fun p => (Ret.value p.1, p.2)
  | Call.get => (get b).map fun x => (Ret.value x, b)
  | Call.reset init => some (Ret.void, reset b init)
  | Call.getWriteIdx => some (Ret.int (getWriteIdx b), b)
  | Call.setWriteIdx i => some (Ret.void, setWriteIdx b i)
  | Call.getReadIdx => some (Ret.int (getReadIdx b), b)
  | Call.setReadIdx i => some (Ret.void, setReadIdx b i)
  | Call.getNumValuesInBuffer => some (Ret.int (getNumValuesInBuffer b), b)
  | Call.getLength => some (Ret.int (getLength b), b)

/-- A sequence of calls on an object, in order: the values returned, in
order, and the final state; `none` as soon as one call is undefined. -/
def run : CRingBuffer T → List (Call T) → Option (List (Ret T) × CRingBuffer T)
  | b, [] => some ([], b)
  | b, c :: cs =>
    match exec b c with
    | none => none
    | some (r, b1) =>
      match run b1 cs with
      | none => none
      | some (rs, b2) => some (r :: rs, b2)

/-- The `T` values among the returned values, in order. -/
def values : List (Ret T) → List T
  | [] => []
  | Ret.value x :: rs => x :: values rs
  | _ :: rs => values rs

/-- The call is a `putPostInc` or a `getPostInc`. -/
def isPostInc : Call T → Bool
  | Call.putPostInc _ => true
  | Call.getPostInc => true
  | _ => false

/-- The values passed to the `putPostInc` calls of a sequence, in order. -/
def putValues : List (Call T) → List T
  | [] => []
  | Call.putPostInc v :: cs => v :: putValues cs
  | _ :: cs => putValues cs

/-- Number of `putPostInc` calls in a sequence. -/
def numPuts (cs : List (Call T)) : Nat :=
  (putValues cs).length

/-- Number of `getPostInc` calls in a sequence. -/
def numGets : List (Call T) → Nat
  | [] => 0
  | Call.getPostInc :: cs => numGets cs + 1
  | _ :: cs => numGets cs

/-- Position `x` counted round a block of `n` slots, for `x < 2 * n`. -/
def wrapIdx (n x : Nat) : Nat :=
  if x < n then x else x - n

/-- The state holds the unread values `q` in a block of `n` slots: they start
at the read cursor, run round the block in order, and the write cursor is
right after them. -/
def Holds (n : Nat) (b : CRingBuffer T) (q : List T) : Prop :=
  b.m_iBuffLength = n ∧ b.m_iBuffData.length = n ∧
    ∃ r : Nat, b.m_iReadInd = r ∧ r < n ∧ q.length ≤ n ∧
      b.m_iWriteInd = wrapIdx n (r + q.length) ∧
      ∀ i, i < q.length → b.m_iBuffData[wrapIdx n (r + i)]? = q[i]?

/-- A sequence of `putPostInc` / `getPostInc` calls that, started with `fill`
unread values in a block of `n` slots, never reads more than was written and
never has more than `n` values unread. -/
def Fits (n : Nat) : Nat → List (Call T) → Prop
  | _, [] => True
  | fill, Call.putPostInc _ :: cs => fill < n ∧ Fits n (fill + 1) cs
  | fill, Call.getPostInc :: cs => 0 < fill ∧ Fits n (fill - 1) cs
  | _, _ :: _ => False

/-- The advance the specification gives for `putPostInc`: `put(value)`
followed by `writeIndex = (writeIndex + 1) mod capacity`. -/
def putPostIncSpec (b : CRingBuffer T) (tNewValue : T) : Option (CRingBuffer T) :=
  (put b tNewValue).map fun b1 =>
    { b1 with m_iWriteInd := (b1.m_iWriteInd + 1) % b1.m_iBuffLength }

/-- The advance the specification gives for `getPostInc`: return
`storage[readIndex]`, then `readIndex = (readIndex + 1) mod capacity`. -/
def getPostIncSpec (b : CRingBuffer T) : Option (T × CRingBuffer T) :=
  (get b).map fun x =>
    (x, { b with m_iReadInd := (b.m_iReadInd + 1) % b.m_iBuffLength })

/-- The caller precondition of the setters: the argument of a `setWriteIdx` or
`setReadIdx` call is in `[0, c)`.  Every other call is unrestricted. -/
def SetterInRange (c : Int) : Call T → Prop
  | Call.setWriteIdx i => 0 ≤ i ∧ i < c
  | Call.setReadIdx i => 0 ≤ i ∧ i < c
  | _ => True

/-- The state after the values `l` were written with `putPostInc` to a fresh
block of `n` slots and nothing was read: the read cursor is `0`, the write
cursor is `l.length mod n`, and each of the last `n` values written is in the
slot of its position modulo `n`. -/
def Written (n : Nat) (b : CRingBuffer T) (l : List T) : Prop :=
  b.m_iBuffLength = n ∧ b.m_iBuffData.length = n ∧ b.m_iReadInd = 0 ∧
    b.m_iWriteInd = (l.length % n : Nat) ∧
    ∀ i, i < l.length → l.length ≤ i + n → b.m_iBuffData[i % n]? = l[i]?

end CRingBuffer

namespace CRingBuffer

variable {T : Type}

theorem newArray_length (n : Int) (init : Nat → T) :
    (newArray n init).length = n.toNat := by
  simp [newArray]

theorem newArray_getElem? (n : Int) (init : Nat → T) (i : Nat) (h : i < n.toNat) :
    (newArray n init)[i]? = some (init i) := by
  simp [newArray, List.getElem?_map, List.getElem?_range h]

/-- In a block of `m_iBuffLength` slots with the write cursor in range,
`putPostInc` stores the value at the cursor and advances the cursor by one,
back to `0` from the last slot. -/
theorem putPostInc_eq (b : CRingBuffer T) (v : T)
    (hlen : (b.m_iBuffData.length : Int) = b.m_iBuffLength)
    (hw : 0 ≤ b.m_iWriteInd ∧ b.m_iWriteInd < b.m_iBuffLength) :
    putPostInc b v = some
      { b with
        m_iBuffData := b.m_iBuffData.set b.m_iWriteInd.toNat v
        m_iWriteInd := if b.m_iWriteInd + 1 = b.m_iBuffLength then 0 else b.m_iWriteInd + 1 } := by
  have h1 : 0 ≤ b.m_iWriteInd ∧ b.m_iWriteInd < (b.m_iBuffData.length : Int) := by
    rw [hlen]; exact hw
  simp only [putPostInc, put, h1, and_self, if_true]
  by_cases h : b.m_iWriteInd + 1 = b.m_iBuffLength
  · simp [h]
  · have h2 : ¬ (b.m_iWriteInd + 1 ≥ b.m_iBuffLength) := by omega
    simp [h, h2]

/-- In a block of `m_iBuffLength` slots with the read cursor in range,
`getPostInc` returns the slot at the cursor and advances the cursor by one,
back to `0` from the last slot. -/
theorem getPostInc_eq (b : CRingBuffer T)
    (hlen : (b.m_iBuffData.length : Int) = b.m_iBuffLength)
    (hr : 0 ≤ b.m_iReadInd ∧ b.m_iReadInd < b.m_iBuffLength) :
    ∃ x, b.m_iBuffData[b.m_iReadInd.toNat]? = some x ∧
      getPostInc b = some (x,
        { b with
          m_iReadInd := if b.m_iReadInd + 1 = b.m_iBuffLength then 0 else b.m_iReadInd + 1 }) := by
  have hlt : b.m_iReadInd.toNat < b.m_iBuffData.length := by omega
  refine ⟨b.m_iBuffData[b.m_iReadInd.toNat], List.getElem?_eq_getElem hlt, ?_⟩
  simp only [getPostInc, get, hr.1, if_true, List.getElem?_eq_getElem hlt]
  by_cases h : b.m_iReadInd + 1 = b.m_iBuffLength
  · simp [h]
  · have h2 : ¬ (b.m_iReadInd + 1 ≥ b.m_iBuffLength) := by omega
    simp [h, h2]

theorem holds_construct (c : Int) (hc : 0 < c) (init : Nat → T) :
    ∃ b, construct c init = some b ∧ Holds c.toNat b [] ∧
      b.m_iReadInd = 0 ∧ b.m_iWriteInd = 0 ∧ b.m_iBuffLength = c := by
  refine ⟨_, if_pos hc, ?_, rfl, rfl, rfl⟩
  refine ⟨?_, ?_, 0, rfl, ?_, ?_, ?_, ?_⟩
  · simp; omega
  · simp [newArray_length]
  · omega
  · simp
  · simp [wrapIdx]
  · intro i hi; simp at hi

theorem holds_putPostInc (n : Nat) (b : CRingBuffer T) (q : List T) (v : T)
    (h : Holds n b q) (hq : q.length < n) :
    ∃ b1, putPostInc b v = some b1 ∧ Holds n b1 (q ++ [v]) ∧
      b1.m_iReadInd = b.m_iReadInd := by
  obtain ⟨hL, hD, r, hr, hrn, hqn, hw, hdata⟩ := h
  have hwlt : wrapIdx n (r + q.length) < n := by unfold wrapIdx; split <;> omega
  have hlen : (b.m_iBuffData.length : Int) = b.m_iBuffLength := by rw [hL, hD]
  have hwr : 0 ≤ b.m_iWriteInd ∧ b.m_iWriteInd < b.m_iBuffLength := by
    rw [hw, hL]; omega
  refine ⟨_, putPostInc_eq b v hlen hwr, ?_, rfl⟩
  refine ⟨hL, ?_, r, hr, hrn, ?_, ?_, ?_⟩
  · simp [hD]
  · simp; omega
  · simp only [hw, hL, List.length_append, List.length_singleton]
    unfold wrapIdx
    split_ifs <;> omega
  · intro i hi
    simp only [List.length_append, List.length_singleton] at hi
    simp only [hw, Int.toNat_ofNat]
    by_cases hiq : i < q.length
    · have hne : wrapIdx n (r + q.length) ≠ wrapIdx n (r + i) := by
        unfold wrapIdx; split_ifs <;> omega
      rw [List.getElem?_set_ne hne, hdata i hiq, List.getElem?_append_left hiq]
    · have hiq2 : i = q.length := by omega
      subst hiq2
      rw [List.getElem?_set_self (by rw [hD]; exact hwlt)]
      simp

theorem holds_getPostInc (n : Nat) (b : CRingBuffer T) (x : T) (q : List T)
    (h : Holds n b (x :: q)) :
    ∃ b1, getPostInc b = some (x, b1) ∧ Holds n b1 q ∧
      b1.m_iWriteInd = b.m_iWriteInd := by
  obtain ⟨hL, hD, r, hr, hrn, hqn, hw, hdata⟩ := h
  simp only [List.length_cons] at hqn hw hdata
  have hlen : (b.m_iBuffData.length : Int) = b.m_iBuffLength := by rw [hL, hD]
  have hrr : 0 ≤ b.m_iReadInd ∧ b.m_iReadInd < b.m_iBuffLength := by
    rw [hr, hL]; omega
  obtain ⟨y, hy, hget⟩ := getPostInc_eq b hlen hrr
  have h0 := hdata 0 (by omega)
  have hr0 : wrapIdx n (r + 0) = r := by unfold wrapIdx; split <;> omega
  rw [hr0] at h0
  rw [hr, Int.toNat_ofNat, h0] at hy
  simp at hy
  subst hy
  refine ⟨_, hget, ?_, rfl⟩
  refine ⟨hL, hD, wrapIdx n (r + 1), ?_, ?_, by omega, ?_, ?_⟩
  · simp only [hr, hL]
    unfold wrapIdx
    split_ifs <;> omega
  · unfold wrapIdx; split <;> omega
  · simp only [hw]
    unfold wrapIdx
    split_ifs <;> omega
  · intro i hi
    have h1 := hdata (i + 1) (by omega)
    have e : wrapIdx n (wrapIdx n (r + 1) + i) = wrapIdx n (r + (i + 1)) := by
      unfold wrapIdx; split_ifs <;> omega
    simp only [e, h1, List.getElem?_cons_succ]

theorem holds_putPostIncAll (n : Nat) (vs : List T) :
    ∀ (b : CRingBuffer T) (q : List T), Holds n b q → q.length + vs.length ≤ n →
      ∃ b1, putPostIncAll b vs = some b1 ∧ Holds n b1 (q ++ vs) ∧
        b1.m_iReadInd = b.m_iReadInd := by
  induction vs with
  | nil => intro b q h _; exact ⟨b, rfl, by simpa using h, rfl⟩
  | cons v vs ih =>
    intro b q h hlen
    simp only [List.length_cons] at hlen
    obtain ⟨b1, hp, h1, hr1⟩ := holds_putPostInc n b q v h (by omega)
    obtain ⟨b2, hp2, h2, hr2⟩ := ih b1 (q ++ [v]) h1 (by simp; omega)
    refine ⟨b2, ?_, by simpa using h2, by rw [hr2, hr1]⟩
    simp only [putPostIncAll, hp, hp2]

theorem holds_getPostIncN (n : Nat) (xs : List T) :
    ∀ (b : CRingBuffer T) (q : List T), Holds n b (xs ++ q) →
      ∃ b1, getPostIncN b xs.length = some (xs, b1) ∧ Holds n b1 q ∧
        b1.m_iWriteInd = b.m_iWriteInd := by
  induction xs with
  | nil => intro b q h; exact ⟨b, rfl, by simpa using h, rfl⟩
  | cons x xs ih =>
    intro b q h
    obtain ⟨b1, hg, h1, hw1⟩ := holds_getPostInc n b x (xs ++ q) h
    obtain ⟨b2, hg2, h2, hw2⟩ := ih b1 q h1
    refine ⟨b2, ?_, h2, by rw [hw2, hw1]⟩
    simp only [List.length_cons, getPostIncN, hg, hg2]

theorem holds_run (n : Nat) (cs : List (Call T)) :
    ∀ (b : CRingBuffer T) (q : List T), Holds n b q → Fits n q.length cs →
      ∃ rs b1, run b cs = some (rs, b1) ∧
        values rs = (q ++ putValues cs).take (numGets cs) ∧
        Holds n b1 ((q ++ putValues cs).drop (numGets cs)) := by
  induction cs with
  | nil => intro b q h _; exact ⟨[], b, rfl, by simp [values, numGets], by simpa [putValues, numGets] using h⟩
  | cons c cs ih =>
    intro b q h hf
    cases c with
    | putPostInc v =>
      obtain ⟨hlt, hf1⟩ := hf
      obtain ⟨b1, hp, h1, _⟩ := holds_putPostInc n b q v h hlt
      obtain ⟨rs, b2, hr, hv, h2⟩ := ih b1 (q ++ [v]) h1 (by simpa using hf1)
      refine ⟨Ret.void :: rs, b2, ?_, ?_, ?_⟩
      · simp [run, exec, hp, hr]
      · simpa [values, putValues, numGets] using hv
      · simpa [putValues, numGets] using h2
    | getPostInc =>
      obtain ⟨hpos, hf1⟩ := hf
      cases q with
      | nil => simp at hpos
      | cons x q =>
        obtain ⟨b1, hg, h1, _⟩ := holds_getPostInc n b x q h
        obtain ⟨rs, b2, hr, hv, h2⟩ := ih b1 q h1 (by simpa using hf1)
        refine ⟨Ret.value x :: rs, b2, ?_, ?_, ?_⟩
        · simp [run, exec, hg, hr]
        · simpa [values, putValues, numGets] using hv
        · simpa [putValues, numGets] using h2
    | put v => exact hf.elim
    | get => exact hf.elim
    | reset i => exact hf.elim
    | getWriteIdx => exact hf.elim
    | setWriteIdx i => exact hf.elim
    | getReadIdx => exact hf.elim
    | setReadIdx i => exact hf.elim
    | getNumValuesInBuffer => exact hf.elim
    | getLength => exact hf.elim

theorem fits_of_counts (n : Nat) (cs : List (Call T)) :
    ∀ fill : Nat, (∀ c ∈ cs, isPostInc c = true) →
      (∀ k, k ≤ cs.length →
        numGets (cs.take k) ≤ fill + numPuts (cs.take k) ∧
        fill + numPuts (cs.take k) ≤ numGets (cs.take k) + n) →
      Fits n fill cs := by
  induction cs with
  | nil => intro _ _ _; trivial
  | cons c cs ih =>
    intro fill hall hk
    have htail : ∀ c ∈ cs, isPostInc c = true := fun c hc => hall c (List.mem_cons_of_mem _ hc)
    cases c with
    | putPostInc v =>
      have h1 := hk 1 (by simp)
      simp [numGets, numPuts, putValues] at h1
      refine ⟨by omega, ih (fill + 1) htail ?_⟩
      intro k hkl
      have h2 := hk (k + 1) (by simpa using hkl)
      simp only [List.take_succ_cons, numGets, numPuts, putValues, List.length_cons] at h2
      simp only [numPuts]
      omega
    | getPostInc =>
      have h1 := hk 1 (by simp)
      simp [numGets, numPuts, putValues] at h1
      refine ⟨by omega, ih (fill - 1) htail ?_⟩
      intro k hkl
      have h2 := hk (k + 1) (by simpa using hkl)
      simp only [List.take_succ_cons, numGets, numPuts, putValues, List.length_cons] at h2
      simp only [numPuts]
      omega
    | put v => simpa [isPostInc] using hall _ (List.mem_cons_self _ _)
    | get => simpa [isPostInc] using hall _ (List.mem_cons_self _ _)
    | reset i => simpa [isPostInc] using hall _ (List.mem_cons_self _ _)
    | getWriteIdx => simpa [isPostInc] using hall _ (List.mem_cons_self _ _)
    | setWriteIdx i => simpa [isPostInc] using hall _ (List.mem_cons_self _ _)
    | getReadIdx => simpa [isPostInc] using hall _ (List.mem_cons_self _ _)
    | setReadIdx i => simpa [isPostInc] using hall _ (List.mem_cons_self _ _)
    | getNumValuesInBuffer => simpa [isPostInc] using hall _ (List.mem_cons_self _ _)
    | getLength => simpa [isPostInc] using hall _ (List.mem_cons_self _ _)

theorem holds_writeInd (n : Nat) (b : CRingBuffer T) (q : List T) (h : Holds n b q)
    (hr : b.m_iReadInd = 0) :
    b.m_iWriteInd = if q.length = n then 0 else (q.length : Int) := by
  obtain ⟨_, _, r, hr1, hrn, hqn, hw, _⟩ := h
  have hr0 : r = 0 := by omega
  subst hr0
  rw [hw]
  unfold wrapIdx
  split_ifs <;> omega

theorem holds_nil_cursors (n : Nat) (b : CRingBuffer T) (h : Holds n b []) :
    b.m_iReadInd = b.m_iWriteInd := by
  obtain ⟨_, _, r, hr1, hrn, _, hw, _⟩ := h
  rw [hw, hr1]
  simp [wrapIdx, hrn]

/-- C1: on a freshly constructed buffer of capacity `c > 0`, `putPostInc` of
`n ≤ c` values followed by `n` calls of `getPostInc` is defined and returns
exactly the values written, in the order written; the write cursor after the
writes is `n` (`0` when `n = c`) and the read cursor after the reads has
caught up with it. -/
theorem fifo_round_trip (c : Int) (hc : 0 < c) (init : Nat → T) (vs : List T)
    (hn : (vs.length : Int) ≤ c) :
    ∃ b0 b1 b2, construct c init = some b0 ∧ putPostIncAll b0 vs = some b1 ∧
      getPostIncN b1 vs.length = some (vs, b2) ∧
      getWriteIdx b1 = (if (vs.length : Int) = c then 0 else (vs.length : Int)) ∧
      getReadIdx b2 = getWriteIdx b1 := by
  obtain ⟨b0, h0, hh0, hr0, _, _⟩ := holds_construct c hc init
  obtain ⟨b1, h1, hh1, hr1⟩ := holds_putPostIncAll c.toNat vs b0 [] hh0 (by simp; omega)
  simp only [List.nil_append] at hh1
  have hh1a : Holds c.toNat b1 (vs ++ []) := by simpa using hh1
  obtain ⟨b2, h2, hh2, hw2⟩ := holds_getPostIncN c.toNat vs b1 [] hh1a
  refine ⟨b0, b1, b2, h0, h1, h2, ?_, ?_⟩
  · have := holds_writeInd c.toNat b1 vs hh1 (by rw [hr1, hr0])
    simp only [getWriteIdx, this]
    split_ifs <;> omega
  · simp only [getReadIdx, getWriteIdx, holds_nil_cursors c.toNat b2 hh2, hw2]

/-- The scenario of C1: capacity 4, values 10, 20, 30, 40. -/
theorem fifo_round_trip_witness :
    (0 : Int) < 4 ∧ (([10, 20, 30, 40] : List Int).length : Int) ≤ 4 ∧
    ∃ b0 b1 b2 : CRingBuffer Int, construct 4 (fun _ => 0) = some b0 ∧
      putPostIncAll b0 [10, 20, 30, 40] = some b1 ∧
      getPostIncN b1 ([10, 20, 30, 40] : List Int).length = some ([10, 20, 30, 40], b2) ∧
      getWriteIdx b1 =
        (if (([10, 20, 30, 40] : List Int).length : Int) = 4 then 0
          else (([10, 20, 30, 40] : List Int).length : Int)) ∧
      getReadIdx b2 = getWriteIdx b1 :=
  ⟨by decide, by decide, fifo_round_trip 4 (by decide) (fun _ => 0) [10, 20, 30, 40] (by decide)⟩

/-- C2: for every sequence of `putPostInc` and `getPostInc` calls on a freshly
constructed buffer of capacity `c > 0` in which, after every initial part of
the sequence, the reads are at most the writes and the writes exceed the reads
by at most `c`, every call is defined and the values the reads return are, in
order, the values written: the `k`-th read returns the `k`-th value written. -/
theorem fifo_across_wraparound (c : Int) (hc : 0 < c) (init : Nat → T)
    (cs : List (Call T)) (hcalls : ∀ x ∈ cs, isPostInc x = true)
    (hfill : ∀ k, k ≤ cs.length →
      numGets (cs.take k) ≤ numPuts (cs.take k) ∧
      ((numPuts (cs.take k) : Int) - (numGets (cs.take k) : Int)) ≤ c) :
    ∃ b0 rs b1, construct c init = some b0 ∧ run b0 cs = some (rs, b1) ∧
      values rs = (putValues cs).take (numGets cs) ∧
      ∀ k, k < numGets cs → (values rs)[k]? = (putValues cs)[k]? := by
  obtain ⟨b0, h0, hh0, _, _, _⟩ := holds_construct c hc init
  have hf : Fits c.toNat ([] : List T).length cs := by
    apply fits_of_counts c.toNat cs 0 hcalls
    intro k hk
    have := hfill k hk
    omega
  obtain ⟨rs, b1, hr, hv, _⟩ := holds_run c.toNat cs b0 [] hh0 hf
  simp only [List.nil_append] at hv
  refine ⟨b0, rs, b1, h0, hr, hv, ?_⟩
  intro k hk
  rw [hv, List.getElem?_take_of_lt hk]

/-- The scenario of C2: capacity 3; write 1, read, write 2, 3, 4, read three
times. -/
theorem fifo_across_wraparound_witness :
    ∃ (b0 : CRingBuffer Int) (rs : List (Ret Int)) (b1 : CRingBuffer Int),
      construct 3 (fun _ => 0) = some b0 ∧
      run b0 [Call.putPostInc 1, Call.getPostInc, Call.putPostInc 2, Call.putPostInc 3,
        Call.putPostInc 4, Call.getPostInc, Call.getPostInc, Call.getPostInc] = some (rs, b1) ∧
      values rs = [1, 2, 3, 4] := by
  obtain ⟨b0, rs, b1, h0, hr, hv, _⟩ :=
    fifo_across_wraparound 3 (by decide) (fun _ => (0 : Int))
      [Call.putPostInc 1, Call.getPostInc, Call.putPostInc 2, Call.putPostInc 3,
        Call.putPostInc 4, Call.getPostInc, Call.getPostInc, Call.getPostInc]
      (by simp [isPostInc])
      (by
        intro k hk
        simp only [List.length_cons, List.length_nil] at hk
        interval_cases k <;> simp [numGets, numPuts, putValues])
  exact ⟨b0, rs, b1, h0, hr, by simpa [putValues, numGets] using hv⟩

/-- C3: for every capacity `c > 0` the constructor produces a buffer with
`getLength() == c`, `getWriteIdx() == 0` and `getReadIdx() == 0`. -/
theorem construct_fresh (c : Int) (hc : 0 < c) (init : Nat → T) :
    ∃ b, construct c init = some b ∧ getLength b = c ∧ getWriteIdx b = 0 ∧
      getReadIdx b = 0 :=
  ⟨_, if_pos hc, rfl, rfl, rfl⟩

/-- C3 at capacity 4. -/
theorem construct_fresh_witness :
    (0 : Int) < 4 ∧ ∃ b : CRingBuffer Int, construct 4 (fun _ => 0) = some b ∧
      getLength b = 4 ∧ getWriteIdx b = 0 ∧ getReadIdx b = 0 :=
  ⟨by decide, construct_fresh 4 (by decide) (fun _ => 0)⟩

/-- C4: construction produces no buffer exactly when the requested capacity is
not positive, and produces one exactly when it is positive. -/
theorem construct_fails_iff (c : Int) (init : Nat → T) :
    (construct c init = none ↔ c ≤ 0) ∧ ((construct c init).isSome = true ↔ 0 < c) := by
  unfold construct
  by_cases h : c > 0
  · simp [h]
  · simp [h]; omega

/-- C5: in a state whose block has `m_iBuffLength` slots and whose write cursor
is in range, `put(v)` followed by `put(v2)` is defined, leaves `getWriteIdx()`
as it was, and the slot at the write cursor holds `v2`; the state is the one
`put(v2)` alone produces. -/
theorem put_last_write_wins (b : CRingBuffer T) (v v2 : T)
    (hlen : (b.m_iBuffData.length : Int) = b.m_iBuffLength)
    (hw : 0 ≤ b.m_iWriteInd ∧ b.m_iWriteInd < b.m_iBuffLength) :
    ∃ b1 b2, put b v = some b1 ∧ put b1 v2 = some b2 ∧
      getWriteIdx b1 = getWriteIdx b ∧ getWriteIdx b2 = getWriteIdx b ∧
      b2.m_iBuffData[(getWriteIdx b).toNat]? = some v2 ∧
      put b v2 = some b2 := by
  have h1 : 0 ≤ b.m_iWriteInd ∧ b.m_iWriteInd < (b.m_iBuffData.length : Int) := by
    rw [hlen]; exact hw
  have hlt : b.m_iWriteInd.toNat < b.m_iBuffData.length := by omega
  refine ⟨_, _, if_pos h1, if_pos (by simpa using h1), rfl, rfl, ?_, ?_⟩
  · simp [getWriteIdx, hlt]
  · simp [put, h1]

/-- C5 on the state after `construct(2)`, with the values 5 and 6. -/
theorem put_last_write_wins_witness :
    ∃ b1 b2 : CRingBuffer Int, put ⟨2, 0, 0, [0, 0]⟩ 5 = some b1 ∧ put b1 6 = some b2 ∧
      getWriteIdx b1 = getWriteIdx (⟨2, 0, 0, [0, 0]⟩ : CRingBuffer Int) ∧
      getWriteIdx b2 = getWriteIdx (⟨2, 0, 0, [0, 0]⟩ : CRingBuffer Int) ∧
      b2.m_iBuffData[(getWriteIdx (⟨2, 0, 0, [0, 0]⟩ : CRingBuffer Int)).toNat]? = some 6 ∧
      put ⟨2, 0, 0, [0, 0]⟩ 6 = some b2 :=
  put_last_write_wins ⟨2, 0, 0, [0, 0]⟩ 5 6 (by decide) (by decide)

/-- C6: in a state whose block has `m_iBuffLength` slots and whose read cursor
is in range, `get()` is defined, returns the slot at the read cursor and leaves
the state as it is, so two consecutive `get()` calls return the same value. -/
theorem get_non_advancing (b : CRingBuffer T)
    (hlen : (b.m_iBuffData.length : Int) = b.m_iBuffLength)
    (hr : 0 ≤ b.m_iReadInd ∧ b.m_iReadInd < b.m_iBuffLength) :
    ∃ x, b.m_iBuffData[b.m_iReadInd.toNat]? = some x ∧ get b = some x ∧
      exec b Call.get = some (Ret.value x, b) ∧
      run b [Call.get, Call.get] = some ([Ret.value x, Ret.value x], b) := by
  have hlt : b.m_iReadInd.toNat < b.m_iBuffData.length := by omega
  have hx : b.m_iBuffData[b.m_iReadInd.toNat]? = some b.m_iBuffData[b.m_iReadInd.toNat] :=
    List.getElem?_eq_getElem hlt
  have hg : get b = some b.m_iBuffData[b.m_iReadInd.toNat] := by
    simp only [get, hr.1, if_true, hx]
  refine ⟨_, hx, hg, ?_, ?_⟩
  · simp only [exec, hg, Option.map_some']
  · simp only [run, exec, hg, Option.map_some']

/-- C6 on a block holding 7, 8, 9 with the read cursor at slot 1. -/
theorem get_non_advancing_witness :
    ∃ x : Int, ([7, 8, 9] : List Int)[(1 : Int).toNat]? = some x ∧
      get (⟨3, 0, 1, [7, 8, 9]⟩ : CRingBuffer Int) = some x ∧
      exec (⟨3, 0, 1, [7, 8, 9]⟩ : CRingBuffer Int) Call.get =
        some (Ret.value x, ⟨3, 0, 1, [7, 8, 9]⟩) ∧
      run (⟨3, 0, 1, [7, 8, 9]⟩ : CRingBuffer Int) [Call.get, Call.get] =
        some ([Ret.value x, Ret.value x], ⟨3, 0, 1, [7, 8, 9]⟩) :=
  get_non_advancing ⟨3, 0, 1, [7, 8, 9]⟩ (by decide) (by decide)

/-- C7: in a state whose block has `m_iBuffLength` slots, for every `k` with
`0 ≤ k < m_iBuffLength`: after
`setWriteIdx(k)`, `getWriteIdx()` returns `k` and the next `put(v)` is defined
and stores `v` in slot `k`, changing no other slot; after `setReadIdx(k)`,
`getReadIdx()` returns `k` and the next `get()` is defined and returns the
content of slot `k`. -/
theorem set_cursor_then_access (b : CRingBuffer T) (k : Int) (v : T)
    (hlen : (b.m_iBuffData.length : Int) = b.m_iBuffLength)
    (hk : 0 ≤ k ∧ k < getLength b) :
    getWriteIdx (setWriteIdx b k) = k ∧
    (∃ b1, put (setWriteIdx b k) v = some b1 ∧
      b1.m_iBuffData = b.m_iBuffData.set k.toNat v ∧ b1.m_iBuffData[k.toNat]? = some v) ∧
    getReadIdx (setReadIdx b k) = k ∧
    (∃ x, b.m_iBuffData[k.toNat]? = some x ∧ get (setReadIdx b k) = some x) := by
  have hk1 : k < b.m_iBuffLength := hk.2
  have hlt : k.toNat < b.m_iBuffData.length := by omega
  have h1 : 0 ≤ k ∧ k < (b.m_iBuffData.length : Int) := by omega
  refine ⟨rfl, ⟨_, if_pos h1, rfl, ?_⟩, rfl, ⟨_, List.getElem?_eq_getElem hlt, ?_⟩⟩
  · simp [setWriteIdx, hlt]
  · simp only [get, setReadIdx, hk.1, if_true, List.getElem?_eq_getElem hlt]

/-- C7 on a block of 3 slots holding 7, 8, 9, with `k = 2` and `v = 5`. -/
theorem set_cursor_then_access_witness :
    getWriteIdx (setWriteIdx (⟨3, 0, 0, [7, 8, 9]⟩ : CRingBuffer Int) 2) = 2 ∧
    (∃ b1, put (setWriteIdx (⟨3, 0, 0, [7, 8, 9]⟩ : CRingBuffer Int) 2) 5 = some b1 ∧
      b1.m_iBuffData = ([7, 8, 9] : List Int).set (2 : Int).toNat 5 ∧
      b1.m_iBuffData[(2 : Int).toNat]? = some 5) ∧
    getReadIdx (setReadIdx (⟨3, 0, 0, [7, 8, 9]⟩ : CRingBuffer Int) 2) = 2 ∧
    (∃ x, ([7, 8, 9] : List Int)[(2 : Int).toNat]? = some x ∧
      get (setReadIdx (⟨3, 0, 0, [7, 8, 9]⟩ : CRingBuffer Int) 2) = some x) :=
  set_cursor_then_access ⟨3, 0, 0, [7, 8, 9]⟩ 2 5 (by decide) (by decide)

theorem getPostIncN_readInd (n : Nat) (j : Nat) :
    ∀ (b : CRingBuffer T) (r : Nat), b.m_iBuffLength = n → b.m_iBuffData.length = n →
      b.m_iReadInd = r → r < n → r + j ≤ n →
      ∃ xs b1, getPostIncN b j = some (xs, b1) ∧ b1.m_iReadInd = wrapIdx n (r + j) := by
  induction j with
  | zero =>
    intro b r _ _ hr hrn _
    exact ⟨[], b, rfl, by simp [wrapIdx, hrn, hr]⟩
  | succ j ih =>
    intro b r hL hD hr hrn hj
    have hlen : (b.m_iBuffData.length : Int) = b.m_iBuffLength := by rw [hL, hD]
    obtain ⟨x, _, hg⟩ := getPostInc_eq b hlen (by rw [hr, hL]; omega)
    by_cases hlast : r + 1 = n
    · have hj0 : j = 0 := by omega
      subst hj0
      have hwrap : b.m_iReadInd + 1 = b.m_iBuffLength := by rw [hr, hL]; omega
      simp only [hwrap, if_true] at hg
      refine ⟨[x], { b with m_iReadInd := 0 }, by simp only [getPostIncN, hg], ?_⟩
      show (0 : Int) = _
      unfold wrapIdx
      split_ifs <;> omega
    · have hne : ¬ (b.m_iReadInd + 1 = b.m_iBuffLength) := by rw [hr, hL]; omega
      simp only [hne, if_false] at hg
      obtain ⟨xs, b2, hg2, hr2⟩ := ih
        { b with m_iReadInd := b.m_iReadInd + 1 } (r + 1) hL hD
        (by simp [hr]) (by omega) (by omega)
      refine ⟨x :: xs, b2, by simp only [getPostIncN, hg, hg2], ?_⟩
      rw [hr2, show r + 1 + j = r + (j + 1) by omega]

/-- C9: on a freshly constructed buffer of capacity `c > 0`, `j ≤ c` calls of
`putPostInc` are defined and leave `getWriteIdx()` at `j` when `j < c` and at
`0` when `j = c`; `j ≤ c` calls of `getPostInc` are defined and leave
`getReadIdx()` at `j` when `j < c` and at `0` when `j = c`. -/
theorem wraparound_period (c : Int) (hc : 0 < c) (init : Nat → T) :
    (∀ vs : List T, (vs.length : Int) ≤ c →
      ∃ b0 b1, construct c init = some b0 ∧ putPostIncAll b0 vs = some b1 ∧
        getWriteIdx b1 = (if (vs.length : Int) = c then 0 else (vs.length : Int))) ∧
    (∀ j : Nat, (j : Int) ≤ c →
      ∃ b0 xs b1, construct c init = some b0 ∧ getPostIncN b0 j = some (xs, b1) ∧
        getReadIdx b1 = (if (j : Int) = c then 0 else (j : Int))) := by
  obtain ⟨b0, h0, hh0, hr0, _, hL0⟩ := holds_construct c hc init
  constructor
  · intro vs hn
    obtain ⟨b1, h1, hh1, hr1⟩ := holds_putPostIncAll c.toNat vs b0 [] hh0 (by simp; omega)
    simp only [List.nil_append] at hh1
    refine ⟨b0, b1, h0, h1, ?_⟩
    have := holds_writeInd c.toNat b1 vs hh1 (by rw [hr1, hr0])
    simp only [getWriteIdx, this]
    split_ifs <;> omega
  · intro j hj
    obtain ⟨xs, b1, h1, hr1⟩ := getPostIncN_readInd c.toNat j b0 0
      (by rw [hL0]; omega) hh0.2.1 (by simpa using hr0) (by omega) (by omega)
    refine ⟨b0, xs, b1, h0, h1, ?_⟩
    simp only [getReadIdx, hr1]
    unfold wrapIdx
    split_ifs <;> omega

/-- C9 at capacity 4: four writes, and four reads, bring the cursor back to
`0`. -/
theorem wraparound_period_witness :
    (∃ b0 b1 : CRingBuffer Int, construct 4 (fun _ => 0) = some b0 ∧
        putPostIncAll b0 [10, 20, 30, 40] = some b1 ∧ getWriteIdx b1 = 0) ∧
    (∃ (b0 : CRingBuffer Int) (xs : List Int) (b1 : CRingBuffer Int),
        construct 4 (fun _ => 0) = some b0 ∧ getPostIncN b0 4 = some (xs, b1) ∧
        getReadIdx b1 = 0) := by
  have h := wraparound_period 4 (by decide) (fun _ => (0 : Int))
  obtain ⟨b0, b1, h0, h1, hw⟩ := h.1 [10, 20, 30, 40] (by decide)
  obtain ⟨c0, xs, c1, g0, g1, hr⟩ := h.2 4 (by decide)
  exact ⟨⟨b0, b1, h0, h1, by simpa using hw⟩, ⟨c0, xs, c1, g0, g1, by simpa using hr⟩⟩

theorem wrapInt32_eq (x : Int) (hlo : -2147483648 ≤ x) (hhi : x < 2147483648) :
    wrapInt32 x = x := by
  unfold wrapInt32
  omega

/-- After `reset()` both cursors are `0`, the length is as before, and `get()`
returns what the allocation left in slot `0` of the new block. -/
theorem reset_then_get (b : CRingBuffer T) (init : Nat → T) (h : 0 < b.m_iBuffLength) :
    getWriteIdx (reset b init) = 0 ∧ getReadIdx (reset b init) = 0 ∧
      getLength (reset b init) = getLength b ∧ get (reset b init) = some (init 0) := by
  refine ⟨rfl, rfl, rfl, ?_⟩
  have h0 : 0 < b.m_iBuffLength.toNat := by omega
  simp [get, reset, newArray_getElem? _ _ 0 h0]

/-- C8, at the failing input: a `CRingBuffer<int>` of capacity 1 in which 7 was
written.  `reset()` allocates its new block with `new T[m_iBuffLength]` and
writes nothing into it; when that block is the one just released, still
holding 7, `get()` after `reset()` returns 7 and not `0`.  The cursors are `0`
and the length is unchanged. -/
theorem reset_get_returns_stale_value :
    ∃ b0 b1 : CRingBuffer Int, construct 1 (fun _ => 0) = some b0 ∧ put b0 7 = some b1 ∧
      getWriteIdx (reset b1 (fun i => b1.m_iBuffData.getD i 0)) = 0 ∧
      getReadIdx (reset b1 (fun i => b1.m_iBuffData.getD i 0)) = 0 ∧
      getLength (reset b1 (fun i => b1.m_iBuffData.getD i 0)) = getLength b1 ∧
      get (reset b1 (fun i => b1.m_iBuffData.getD i 0)) = some 7 ∧
      (7 : Int) ≠ 0 :=
  ⟨⟨1, 0, 0, [0]⟩, ⟨1, 0, 0, [7]⟩, rfl, rfl, rfl, rfl, rfl, by decide, by decide⟩

/-- C10 as stated fails where the difference of the cursors is not an `int`:
after `setWriteIdx(2147483647)` and `setReadIdx(-1)` the difference is
`2147483648` and the method returns `-2147483648`; after `setWriteIdx(-2)` and
`setReadIdx(2147483647)` the read cursor is above the write cursor and the
method returns `2147483647`, which is not negative. -/
theorem getNumValuesInBuffer_not_exact :
    ∃ b0 : CRingBuffer Int, construct 4 (fun _ => 0) = some b0 ∧
      getNumValuesInBuffer (setReadIdx (setWriteIdx b0 2147483647) (-1)) = -2147483648 ∧
      getWriteIdx (setReadIdx (setWriteIdx b0 2147483647) (-1)) -
        getReadIdx (setReadIdx (setWriteIdx b0 2147483647) (-1)) = 2147483648 ∧
      getReadIdx (setReadIdx (setWriteIdx b0 (-2)) 2147483647) >
        getWriteIdx (setReadIdx (setWriteIdx b0 (-2)) 2147483647) ∧
      getNumValuesInBuffer (setReadIdx (setWriteIdx b0 (-2)) 2147483647) = 2147483647 :=
  ⟨⟨4, 0, 0, [0, 0, 0, 0]⟩, rfl, by decide, by decide, by decide, by decide⟩

/-- C10, amended: in every state in which `writeIndex - readIndex` is an
`int` (so in every state with both cursors in `[0, capacity)`),
`getNumValuesInBuffer()` returns exactly `writeIndex - readIndex`, neither
wrapped round the capacity nor clamped, and the value is negative exactly when
the read cursor is above the write cursor.  On a fresh buffer of capacity `c`
(an `int`), after `k ≤ c` calls of `putPostInc` and no read it returns `k`
when `k < c` and `0` when `k = c`; after one `getPostInc` on a fresh buffer of
capacity at least 2 it returns `-1`. -/
theorem getNumValuesInBuffer_exact :
    (∀ b : CRingBuffer T, -2147483648 ≤ b.m_iWriteInd - b.m_iReadInd →
      b.m_iWriteInd - b.m_iReadInd < 2147483648 →
      getNumValuesInBuffer b = getWriteIdx b - getReadIdx b ∧
      (getNumValuesInBuffer b < 0 ↔ getReadIdx b > getWriteIdx b)) ∧
    (∀ b : CRingBuffer T, b.m_iBuffLength < 2147483648 →
      (0 ≤ b.m_iWriteInd ∧ b.m_iWriteInd < b.m_iBuffLength) →
      (0 ≤ b.m_iReadInd ∧ b.m_iReadInd < b.m_iBuffLength) →
      getNumValuesInBuffer b = getWriteIdx b - getReadIdx b) ∧
    (∀ (c : Int) (init : Nat → T) (vs : List T), 0 < c → c < 2147483648 →
      (vs.length : Int) ≤ c →
      ∃ b0 b1, construct c init = some b0 ∧ putPostIncAll b0 vs = some b1 ∧
        getNumValuesInBuffer b1 = (if (vs.length : Int) = c then 0 else (vs.length : Int))) ∧
    (∀ (c : Int) (init : Nat → T), 2 ≤ c → c < 2147483648 →
      ∃ b0 x b1, construct c init = some b0 ∧ getPostInc b0 = some (x, b1) ∧
        getNumValuesInBuffer b1 = -1) := by
  refine ⟨?_, ?_, ?_, ?_⟩
  · intro b hlo hhi
    have h := wrapInt32_eq _ hlo hhi
    simp only [getNumValuesInBuffer, getWriteIdx, getReadIdx, h]
    exact ⟨trivial, by omega⟩
  · intro b hL hw hr
    simp only [getNumValuesInBuffer, getWriteIdx, getReadIdx]
    exact wrapInt32_eq _ (by omega) (by omega)
  · intro c init vs hc hc32 hn
    obtain ⟨b0, h0, hh0, hr0, _, _⟩ := holds_construct c hc init
    obtain ⟨b1, h1, hh1, hr1⟩ := holds_putPostIncAll c.toNat vs b0 [] hh0 (by simp; omega)
    simp only [List.nil_append] at hh1
    refine ⟨b0, b1, h0, h1, ?_⟩
    have hw := holds_writeInd c.toNat b1 vs hh1 (by rw [hr1, hr0])
    have hr : b1.m_iReadInd = 0 := by rw [hr1, hr0]
    simp only [getNumValuesInBuffer, hw, hr, sub_zero]
    split_ifs <;> (unfold wrapInt32; omega)
  · intro c init hc hc32
    obtain ⟨b0, h0, hh0, hr0, hw0, hL0⟩ := holds_construct c (by omega) init
    have hD0 : (b0.m_iBuffData.length : Int) = b0.m_iBuffLength := by
      rw [hh0.2.1, hL0]; omega
    obtain ⟨x, _, hg⟩ := getPostInc_eq b0 hD0 (by rw [hr0, hL0]; omega)
    have hne : ¬ (b0.m_iReadInd + 1 = b0.m_iBuffLength) := by rw [hr0, hL0]; omega
    simp only [hne, if_false] at hg
    refine ⟨b0, x, _, h0, hg, ?_⟩
    simp only [getNumValuesInBuffer, hw0, hr0]
    decide

/-- C10, amended, at capacity 4: 3 after three writes, 0 after four, and -1
after a single read on a fresh buffer. -/
theorem getNumValuesInBuffer_exact_witness :
    (∃ b0 b1 : CRingBuffer Int, construct 4 (fun _ => 0) = some b0 ∧
        putPostIncAll b0 [10, 20, 30] = some b1 ∧ getNumValuesInBuffer b1 = 3) ∧
    (∃ b0 b1 : CRingBuffer Int, construct 4 (fun _ => 0) = some b0 ∧
        putPostIncAll b0 [10, 20, 30, 40] = some b1 ∧ getNumValuesInBuffer b1 = 0) ∧
    (∃ (b0 : CRingBuffer Int) (x : Int) (b1 : CRingBuffer Int),
        construct 4 (fun _ => 0) = some b0 ∧ getPostInc b0 = some (x, b1) ∧
        getNumValuesInBuffer b1 = -1) := by
  have h := getNumValuesInBuffer_exact (T := Int)
  obtain ⟨b0, b1, h0, h1, hn⟩ :=
    h.2.2.1 4 (fun _ => 0) [10, 20, 30] (by decide) (by decide) (by decide)
  obtain ⟨c0, c1, g0, g1, gn⟩ :=
    h.2.2.1 4 (fun _ => 0) [10, 20, 30, 40] (by decide) (by decide) (by decide)
  obtain ⟨d0, x, d1, k0, k1, kn⟩ := h.2.2.2 4 (fun _ => 0) (by decide) (by decide)
  exact ⟨⟨b0, b1, h0, h1, by simpa using hn⟩, ⟨c0, c1, g0, g1, by simpa using gn⟩,
    ⟨d0, x, d1, k0, k1, kn⟩⟩

/-- C11, at the failing input: capacity 2, two writes and one read, so one
value is unread; the write cursor has gone back to `0`, the read cursor is at
`1`, and `getNumValuesInBuffer()` returns `-1`, not `1`. -/
theorem getNumValuesInBuffer_negative_after_wrap :
    ∃ (b0 : CRingBuffer Int) (rs : List (Ret Int)) (b1 : CRingBuffer Int),
      construct 2 (fun _ => 0) = some b0 ∧
      run b0 [Call.putPostInc 1, Call.putPostInc 2, Call.getPostInc] = some (rs, b1) ∧
      values rs = [1] ∧ getWriteIdx b1 = 0 ∧ getReadIdx b1 = 1 ∧
      getNumValuesInBuffer b1 = -1 ∧
      (numPuts [Call.putPostInc (1 : Int), Call.putPostInc 2, Call.getPostInc] : Int) -
        (numGets [Call.putPostInc (1 : Int), Call.putPostInc 2, Call.getPostInc] : Int) = 1 :=
  ⟨⟨2, 0, 0, [0, 0]⟩, [Ret.void, Ret.void, Ret.value 1], ⟨2, 0, 1, [1, 2]⟩,
    rfl, rfl, rfl, rfl, rfl, by decide, by decide⟩

/-- C12: in every state with the write cursor in `[0, capacity)`, wherever the
read cursor is, `putPostInc(v)` is `put(v)` followed by
`writeIndex := (writeIndex + 1) mod capacity`; in every state with the read
cursor in `[0, capacity)`, wherever the write cursor is, `getPostInc()` yields
what `get()` followed by `readIndex := (readIndex + 1) mod capacity` yields;
each is defined when the block has `capacity` slots.  In every state the value
`getPostInc()` returns is the one `get()` returns on the state before the
call. -/
theorem postInc_is_access_then_advance (b : CRingBuffer T) (v : T) :
    ((0 ≤ b.m_iWriteInd ∧ b.m_iWriteInd < b.m_iBuffLength) →
      putPostInc b v = putPostIncSpec b v ∧
      ((b.m_iBuffData.length : Int) = b.m_iBuffLength →
        (putPostInc b v).isSome = true)) ∧
    ((0 ≤ b.m_iReadInd ∧ b.m_iReadInd < b.m_iBuffLength) →
      getPostInc b = getPostIncSpec b ∧
      ((b.m_iBuffData.length : Int) = b.m_iBuffLength →
        (getPostInc b).isSome = true)) ∧
    ((getPostInc b).map fun p => p.1) = get b := by
  refine ⟨?_, ?_, ?_⟩
  · intro hw
    have hwm : (b.m_iWriteInd + 1) % b.m_iBuffLength =
        if b.m_iWriteInd + 1 ≥ b.m_iBuffLength then 0 else b.m_iWriteInd + 1 := by
      split_ifs with h
      · have : b.m_iWriteInd + 1 = b.m_iBuffLength := by omega
        rw [this, Int.emod_self]
      · exact Int.emod_eq_of_lt (by omega) (by omega)
    refine ⟨?_, ?_⟩
    · unfold putPostInc putPostIncSpec
      cases hp : put b v with
      | none => rfl
      | some b1 =>
        have hb1 : b1.m_iWriteInd = b.m_iWriteInd ∧ b1.m_iBuffLength = b.m_iBuffLength := by
          unfold put at hp
          split_ifs at hp
          cases hp
          exact ⟨rfl, rfl⟩
        simp only [Option.map_some', hb1.1, hb1.2, hwm]
        split_ifs <;> rfl
    · intro hlen
      rw [putPostInc_eq b v hlen hw]
      rfl
  · intro hr
    have hrm : (b.m_iReadInd + 1) % b.m_iBuffLength =
        if b.m_iReadInd + 1 ≥ b.m_iBuffLength then 0 else b.m_iReadInd + 1 := by
      split_ifs with h
      · have : b.m_iReadInd + 1 = b.m_iBuffLength := by omega
        rw [this, Int.emod_self]
      · exact Int.emod_eq_of_lt (by omega) (by omega)
    refine ⟨?_, ?_⟩
    · unfold getPostInc getPostIncSpec
      cases hg : get b with
      | none => rfl
      | some x =>
        simp only [Option.map_some', hrm]
        split_ifs <;> rfl
    · intro hlen
      obtain ⟨x, _, hg⟩ := getPostInc_eq b hlen hr
      rw [hg]
      rfl
  · unfold getPostInc
    cases hg : get b with
    | none => rfl
    | some x =>
      simp only
      split_ifs <;> rfl

/-- C12 on a block of 3 slots: the write half with the write cursor at the
last slot and the read cursor set to `-1`, the read half with the read cursor
at the last slot and the write cursor set to `7`; both advances go back to
`0`. -/
theorem postInc_is_access_then_advance_witness :
    putPostInc (⟨3, 2, -1, [7, 8, 9]⟩ : CRingBuffer Int) 5 = some ⟨3, 0, -1, [7, 8, 5]⟩ ∧
    putPostIncSpec (⟨3, 2, -1, [7, 8, 9]⟩ : CRingBuffer Int) 5 =
      some ⟨3, 0, -1, [7, 8, 5]⟩ ∧
    (putPostInc (⟨3, 2, -1, [7, 8, 9]⟩ : CRingBuffer Int) 5).isSome = true ∧
    getPostInc (⟨3, 7, 2, [7, 8, 9]⟩ : CRingBuffer Int) = some (9, ⟨3, 7, 0, [7, 8, 9]⟩) ∧
    getPostIncSpec (⟨3, 7, 2, [7, 8, 9]⟩ : CRingBuffer Int) =
      some (9, ⟨3, 7, 0, [7, 8, 9]⟩) ∧
    (getPostInc (⟨3, 7, 2, [7, 8, 9]⟩ : CRingBuffer Int)).isSome = true := by
  have hp := (postInc_is_access_then_advance (⟨3, 2, -1, [7, 8, 9]⟩ : CRingBuffer Int) 5).1
    (by decide)
  have hg := (postInc_is_access_then_advance (⟨3, 7, 2, [7, 8, 9]⟩ : CRingBuffer Int) 5).2.1
    (by decide)
  refine ⟨rfl, ?_, hp.2 (by decide), rfl, ?_, hg.2 (by decide)⟩
  · rw [← hp.1]; rfl
  · rw [← hg.1]; rfl

theorem wellFormed_construct (c : Int) (hc : 0 < c) (init : Nat → T) :
    ∃ b, construct c init = some b ∧ WellFormed b ∧ b.m_iBuffLength = c := by
  refine ⟨_, if_pos hc, ⟨?_, hc, ⟨le_refl _, hc⟩, ⟨le_refl _, hc⟩⟩, rfl⟩
  simp only [newArray_length]
  omega

theorem wellFormed_reset (b : CRingBuffer T) (init : Nat → T) (h : 0 < b.m_iBuffLength) :
    WellFormed (reset b init) := by
  refine ⟨?_, h, ⟨le_refl _, h⟩, ⟨le_refl _, h⟩⟩
  simp only [reset, newArray_length]
  omega

theorem wellFormed_put (b : CRingBuffer T) (v : T) (h : WellFormed b) :
    ∃ b1, put b v = some b1 ∧ WellFormed b1 ∧ b1.m_iBuffLength = b.m_iBuffLength := by
  obtain ⟨hlen, hc, hw, hr⟩ := h
  have h1 : 0 ≤ b.m_iWriteInd ∧ b.m_iWriteInd < (b.m_iBuffData.length : Int) := by
    rw [hlen]; exact hw
  refine ⟨_, if_pos h1, ⟨?_, hc, hw, hr⟩, rfl⟩
  simp only [List.length_set]
  exact hlen

theorem wellFormed_putPostInc (b : CRingBuffer T) (v : T) (h : WellFormed b) :
    ∃ b1, putPostInc b v = some b1 ∧ WellFormed b1 ∧
      b1.m_iBuffLength = b.m_iBuffLength := by
  obtain ⟨hlen, hc, hw, hr⟩ := h
  refine ⟨_, putPostInc_eq b v hlen hw, ⟨?_, hc, ?_, hr⟩, rfl⟩
  · simp only [List.length_set]
    exact hlen
  · dsimp only
    split_ifs <;> omega

theorem wellFormed_getPostInc (b : CRingBuffer T) (h : WellFormed b) :
    ∃ x b1, getPostInc b = some (x, b1) ∧ WellFormed b1 ∧
      b1.m_iBuffLength = b.m_iBuffLength := by
  obtain ⟨hlen, hc, hw, hr⟩ := h
  obtain ⟨x, _, hg⟩ := getPostInc_eq b hlen hr
  refine ⟨x, _, hg, ⟨hlen, hc, hw, ?_⟩, rfl⟩
  dsimp only
  split_ifs <;> omega

theorem wellFormed_get (b : CRingBuffer T) (h : WellFormed b) :
    ∃ x, get b = some x := by
  obtain ⟨hlen, _, _, hr⟩ := h
  have hlt : b.m_iReadInd.toNat < b.m_iBuffData.length := by omega
  exact ⟨b.m_iBuffData[b.m_iReadInd.toNat],
    by simp only [get, hr.1, if_true, List.getElem?_eq_getElem hlt]⟩

/-- One call on a well-formed state, the setter arguments in `[0, capacity)`,
is defined and leaves a well-formed state of the same capacity. -/
theorem wellFormed_exec (b : CRingBuffer T) (x : Call T) (h : WellFormed b)
    (hx : SetterInRange b.m_iBuffLength x) :
    ∃ r b1, exec b x = some (r, b1) ∧ WellFormed b1 ∧
      b1.m_iBuffLength = b.m_iBuffLength := by
  cases x with
  | putPostInc v =>
    obtain ⟨b1, hp, h1, hL⟩ := wellFormed_putPostInc b v h
    exact ⟨Ret.void, b1, by simp only [exec, hp, Option.map_some'], h1, hL⟩
  | put v =>
    obtain ⟨b1, hp, h1, hL⟩ := wellFormed_put b v h
    exact ⟨Ret.void, b1, by simp only [exec, hp, Option.map_some'], h1, hL⟩
  | getPostInc =>
    obtain ⟨y, b1, hg, h1, hL⟩ := wellFormed_getPostInc b h
    exact ⟨Ret.value y, b1, by simp only [exec, hg, Option.map_some'], h1, hL⟩
  | get =>
    obtain ⟨y, hg⟩ := wellFormed_get b h
    exact ⟨Ret.value y, b, by simp only [exec, hg, Option.map_some'], h, rfl⟩
  | reset i => exact ⟨_, _, rfl, wellFormed_reset b i h.2.1, rfl⟩
  | getWriteIdx => exact ⟨_, _, rfl, h, rfl⟩
  | setWriteIdx i => exact ⟨_, _, rfl, ⟨h.1, h.2.1, hx, h.2.2.2⟩, rfl⟩
  | getReadIdx => exact ⟨_, _, rfl, h, rfl⟩
  | setReadIdx i => exact ⟨_, _, rfl, ⟨h.1, h.2.1, h.2.2.1, hx⟩, rfl⟩
  | getNumValuesInBuffer => exact ⟨_, _, rfl, h, rfl⟩
  | getLength => exact ⟨_, _, rfl, h, rfl⟩

/-- A sequence of calls on a well-formed state, the setter arguments in
`[0, capacity)`, is defined and leaves a well-formed state of the same
capacity. -/
theorem wellFormed_run (cs : List (Call T)) :
    ∀ b : CRingBuffer T, WellFormed b → (∀ x ∈ cs, SetterInRange b.m_iBuffLength x) →
      ∃ rs b1, run b cs = some (rs, b1) ∧ WellFormed b1 ∧
        b1.m_iBuffLength = b.m_iBuffLength := by
  induction cs with
  | nil => intro b h _; exact ⟨[], b, rfl, h, rfl⟩
  | cons x cs ih =>
    intro b h hall
    obtain ⟨r, b1, he, h1, hL1⟩ := wellFormed_exec b x h (hall x (List.mem_cons_self _ _))
    obtain ⟨rs, b2, hr, h2, hL2⟩ := ih b1 h1 (by
      intro y hy
      rw [hL1]
      exact hall y (List.mem_cons_of_mem _ hy))
    exact ⟨r :: rs, b2, by simp only [run, he, hr], h2, by rw [hL2, hL1]⟩

theorem put_some (b b1 : CRingBuffer T) (v : T) (h : put b v = some b1) :
    b1 = { b with m_iBuffData := b.m_iBuffData.set b.m_iWriteInd.toNat v } := by
  unfold put at h
  split_ifs at h
  exact (Option.some.inj h).symm

theorem putPostInc_some (b b1 : CRingBuffer T) (v : T) (h : putPostInc b v = some b1) :
    b1.m_iBuffLength = b.m_iBuffLength ∧ b1.m_iReadInd = b.m_iReadInd ∧
      b1.m_iBuffData = b.m_iBuffData.set b.m_iWriteInd.toNat v := by
  unfold putPostInc at h
  cases hp : put b v with
  | none => simp [hp] at h
  | some b2 =>
    have h2 := put_some b b2 v hp
    simp only [hp] at h
    split_ifs at h <;> (cases h; subst h2; exact ⟨rfl, rfl, rfl⟩)

theorem getPostInc_some (b b1 : CRingBuffer T) (x : T) (h : getPostInc b = some (x, b1)) :
    b1.m_iBuffLength = b.m_iBuffLength ∧ b1.m_iWriteInd = b.m_iWriteInd ∧
      b1.m_iBuffData = b.m_iBuffData ∧ get b = some x := by
  unfold getPostInc at h
  cases hg : get b with
  | none => simp [hg] at h
  | some y =>
    simp only [hg] at h
    split_ifs at h <;> (cases h; exact ⟨rfl, rfl, rfl, rfl⟩)

/-- No call changes `m_iBuffLength`. -/
theorem exec_length (b : CRingBuffer T) (x : Call T) (r : Ret T) (b1 : CRingBuffer T)
    (h : exec b x = some (r, b1)) : b1.m_iBuffLength = b.m_iBuffLength := by
  cases x with
  | putPostInc v =>
    simp only [exec] at h
    cases hp : putPostInc b v with
    | none => simp [hp] at h
    | some b2 =>
      simp only [hp, Option.map_some', Option.some.injEq, Prod.mk.injEq] at h
      rw [← h.2]
      exact (putPostInc_some b b2 v hp).1
  | put v =>
    simp only [exec] at h
    cases hp : put b v with
    | none => simp [hp] at h
    | some b2 =>
      simp only [hp, Option.map_some', Option.some.injEq, Prod.mk.injEq] at h
      rw [← h.2, put_some b b2 v hp]
  | getPostInc =>
    simp only [exec] at h
    cases hg : getPostInc b with
    | none => simp [hg] at h
    | some p =>
      obtain ⟨y, b2⟩ := p
      simp only [hg, Option.map_some', Option.some.injEq, Prod.mk.injEq] at h
      rw [← h.2]
      exact (getPostInc_some b b2 y hg).1
  | get =>
    simp only [exec] at h
    cases hg : get b with
    | none => simp [hg] at h
    | some y =>
      simp only [hg, Option.map_some', Option.some.injEq, Prod.mk.injEq] at h
      rw [← h.2]
  | reset i => simp only [exec, Option.some.injEq, Prod.mk.injEq] at h; rw [← h.2]; rfl
  | getWriteIdx => simp only [exec, Option.some.injEq, Prod.mk.injEq] at h; rw [← h.2]
  | setWriteIdx i => simp only [exec, Option.some.injEq, Prod.mk.injEq] at h; rw [← h.2]; rfl
  | getReadIdx => simp only [exec, Option.some.injEq, Prod.mk.injEq] at h; rw [← h.2]
  | setReadIdx i => simp only [exec, Option.some.injEq, Prod.mk.injEq] at h; rw [← h.2]; rfl
  | getNumValuesInBuffer => simp only [exec, Option.some.injEq, Prod.mk.injEq] at h; rw [← h.2]
  | getLength => simp only [exec, Option.some.injEq, Prod.mk.injEq] at h; rw [← h.2]

/-- No sequence of calls changes `m_iBuffLength`. -/
theorem run_length (cs : List (Call T)) :
    ∀ (b : CRingBuffer T) (rs : List (Ret T)) (b1 : CRingBuffer T),
      run b cs = some (rs, b1) → b1.m_iBuffLength = b.m_iBuffLength := by
  induction cs with
  | nil =>
    intro b rs b1 h
    simp only [run, Option.some.injEq, Prod.mk.injEq] at h
    rw [← h.2]
  | cons x cs ih =>
    intro b rs b1 h
    simp only [run] at h
    cases he : exec b x with
    | none => simp [he] at h
    | some p =>
      obtain ⟨r, b2⟩ := p
      simp only [he] at h
      cases hr : run b2 cs with
      | none => simp [hr] at h
      | some q =>
        obtain ⟨rs2, b3⟩ := q
        simp only [hr, Option.some.injEq, Prod.mk.injEq] at h
        rw [← h.2, ih b2 rs2 b3 hr, exec_length b x r b2 he]

/-- C13 as stated fails: the setters store any `int`.  On a buffer of capacity
4, after `setWriteIdx(7)` and `setReadIdx(-1)` the write cursor is `7` and the
read cursor is `-1`, both outside `[0, 4)`. -/
theorem cursor_range_broken_by_setter :
    ∃ (b0 : CRingBuffer Int) (rs : List (Ret Int)) (b1 : CRingBuffer Int),
      construct 4 (fun _ => 0) = some b0 ∧
      run b0 [Call.setWriteIdx 7, Call.setReadIdx (-1)] = some (rs, b1) ∧
      getWriteIdx b1 = 7 ∧ getReadIdx b1 = -1 ∧
      ¬ (getWriteIdx b1 < 4) ∧ ¬ (0 ≤ getReadIdx b1) :=
  ⟨⟨4, 0, 0, [0, 0, 0, 0]⟩, [Ret.void, Ret.void], ⟨4, 7, -1, [0, 0, 0, 0]⟩,
    rfl, rfl, rfl, rfl, by decide, by decide⟩

/-- C13, amended: for every buffer constructed with capacity `c > 0` and every
sequence of public calls in which every `setWriteIdx(p)` and `setReadIdx(p)`
has `0 ≤ p < c`, every call is defined and after every step
`0 ≤ writeIndex < c` and `0 ≤ readIndex < c`. -/
theorem cursor_range_invariant (c : Int) (hc : 0 < c) (init : Nat → T)
    (cs : List (Call T)) (hall : ∀ x ∈ cs, SetterInRange c x) :
    ∃ b0, construct c init = some b0 ∧
      ∀ k : Nat, ∃ rs b1, run b0 (cs.take k) = some (rs, b1) ∧
        (0 ≤ getWriteIdx b1 ∧ getWriteIdx b1 < c) ∧
        (0 ≤ getReadIdx b1 ∧ getReadIdx b1 < c) := by
  obtain ⟨b0, h0, hw0, hL0⟩ := wellFormed_construct c hc init
  refine ⟨b0, h0, ?_⟩
  intro k
  obtain ⟨rs, b1, hr, hw1, hL1⟩ := wellFormed_run (cs.take k) b0 hw0 (by
    intro x hx
    rw [hL0]
    exact hall x (List.mem_of_mem_take hx))
  have hL : b1.m_iBuffLength = c := by rw [hL1, hL0]
  refine ⟨rs, b1, hr, ?_, ?_⟩
  · have := hw1.2.2.1
    rw [hL] at this
    exact this
  · have := hw1.2.2.2
    rw [hL] at this
    exact this

/-- C13, amended, at capacity 2: three writes, an in-range setter, a reset and
a read; the cursors are in `[0, 2)` after each step. -/
theorem cursor_range_invariant_witness :
    ∃ b0 : CRingBuffer Int, construct 2 (fun _ => 0) = some b0 ∧
      ∀ k : Nat, ∃ rs b1,
        run b0 (([Call.putPostInc 1, Call.putPostInc 2, Call.putPostInc 3,
          Call.setReadIdx 1, Call.reset (fun _ => 0), Call.getPostInc] :
            List (Call Int)).take k) = some (rs, b1) ∧
        (0 ≤ getWriteIdx b1 ∧ getWriteIdx b1 < 2) ∧
        (0 ≤ getReadIdx b1 ∧ getReadIdx b1 < 2) :=
  cursor_range_invariant 2 (by decide) (fun _ => 0)
    [Call.putPostInc 1, Call.putPostInc 2, Call.putPostInc 3,
      Call.setReadIdx 1, Call.reset (fun _ => 0), Call.getPostInc]
    (by
      intro x hx
      simp only [List.mem_cons, List.mem_singleton, List.not_mem_nil, or_false] at hx
      rcases hx with rfl | rfl | rfl | rfl | rfl | rfl <;> simp [SetterInRange])

/-- C14: for a buffer constructed with capacity `c > 0`, after every sequence
of public calls (whatever it leaves of the cursors) `getLength()` returns `c`
and `getLength()` itself leaves the state as it is; sequences whose setter
arguments are in `[0, c)` are defined throughout. -/
theorem capacity_immutable (c : Int) (hc : 0 < c) (init : Nat → T) :
    ∃ b0, construct c init = some b0 ∧
      (∀ (cs : List (Call T)) (rs : List (Ret T)) (b1 : CRingBuffer T),
        run b0 cs = some (rs, b1) →
          getLength b1 = c ∧ exec b1 Call.getLength = some (Ret.int c, b1)) ∧
      (∀ cs : List (Call T), (∀ x ∈ cs, SetterInRange c x) →
        ∃ rs b1, run b0 cs = some (rs, b1) ∧ getLength b1 = c) := by
  obtain ⟨b0, h0, hw0, hL0⟩ := wellFormed_construct c hc init
  refine ⟨b0, h0, ?_, ?_⟩
  · intro cs rs b1 hr
    have hL : b1.m_iBuffLength = c := by rw [run_length cs b0 rs b1 hr, hL0]
    refine ⟨hL, ?_⟩
    simp only [exec, getLength, hL]
  · intro cs hall
    obtain ⟨rs, b1, hr, _, hL1⟩ := wellFormed_run cs b0 hw0 (by rw [hL0]; exact hall)
    exact ⟨rs, b1, hr, by rw [getLength, hL1, hL0]⟩

/-- C14 at capacity 3: after writes, setters out of range and a reset the
length is still 3. -/
theorem capacity_immutable_witness :
    ∃ (rs : List (Ret Int)) (b1 : CRingBuffer Int),
      run (⟨3, 0, 0, [0, 0, 0]⟩ : CRingBuffer Int)
        [Call.putPostInc 1, Call.put 2, Call.setWriteIdx 9, Call.setReadIdx (-4),
          Call.getNumValuesInBuffer, Call.reset (fun _ => 0), Call.get] = some (rs, b1) ∧
      getLength b1 = 3 ∧ exec b1 Call.getLength = some (Ret.int 3, b1) := by
  obtain ⟨b0, h0, h1, _⟩ := capacity_immutable 3 (by decide) (fun _ => (0 : Int))
  have hb : b0 = ⟨3, 0, 0, [0, 0, 0]⟩ := (Option.some.inj h0).symm
  subst hb
  have hrun : run (⟨3, 0, 0, [0, 0, 0]⟩ : CRingBuffer Int)
      [Call.putPostInc 1, Call.put 2, Call.setWriteIdx 9, Call.setReadIdx (-4),
        Call.getNumValuesInBuffer, Call.reset (fun _ => 0), Call.get] =
      some ([Ret.void, Ret.void, Ret.void, Ret.void, Ret.int 13, Ret.void, Ret.value 0],
        ⟨3, 0, 0, [0, 0, 0]⟩) := rfl
  exact ⟨_, _, hrun, h1 _ _ _ hrun⟩

/-- C15: the well-formedness predicate (the block has exactly `capacity` slots,
`capacity > 0`, both cursors in `[0, capacity)`) holds for the buffer
`construct(c)` produces when `c > 0`, and on a well-formed state `put`,
`putPostInc`, `get`, `getPostInc` are defined and they, `reset`,
`setWriteIdx(k)` and `setReadIdx(k)` with `0 ≤ k < capacity` leave a
well-formed state. -/
theorem wellFormed_preserved (c : Int) (hc : 0 < c) (init : Nat → T)
    (b : CRingBuffer T) (hb : WellFormed b) (v : T) (k : Int)
    (hk : 0 ≤ k ∧ k < b.m_iBuffLength) :
    (∃ b0, construct c init = some b0 ∧ WellFormed b0) ∧
    (∃ b1, put b v = some b1 ∧ WellFormed b1) ∧
    (∃ b1, putPostInc b v = some b1 ∧ WellFormed b1) ∧
    (∃ x, get b = some x ∧ exec b Call.get = some (Ret.value x, b)) ∧
    (∃ x b1, getPostInc b = some (x, b1) ∧ WellFormed b1) ∧
    WellFormed (reset b init) ∧
    WellFormed (setWriteIdx b k) ∧ WellFormed (setReadIdx b k) := by
  obtain ⟨b0, h0, hw0, _⟩ := wellFormed_construct c hc init
  obtain ⟨b1, hp, hw1, _⟩ := wellFormed_put b v hb
  obtain ⟨b2, hpp, hw2, _⟩ := wellFormed_putPostInc b v hb
  obtain ⟨x, hg⟩ := wellFormed_get b hb
  obtain ⟨y, b3, hgp, hw3, _⟩ := wellFormed_getPostInc b hb
  refine ⟨⟨b0, h0, hw0⟩, ⟨b1, hp, hw1⟩, ⟨b2, hpp, hw2⟩, ⟨x, hg, ?_⟩, ⟨y, b3, hgp, hw3⟩,
    wellFormed_reset b init hb.2.1, ⟨hb.1, hb.2.1, hk, hb.2.2.2⟩,
    ⟨hb.1, hb.2.1, hb.2.2.1, hk⟩⟩
  simp only [exec, hg, Option.map_some']

/-- C15 at capacity 3, on a state with the write cursor at the last slot. -/
theorem wellFormed_preserved_witness :
    WellFormed (⟨3, 2, 1, [7, 8, 9]⟩ : CRingBuffer Int) ∧
    (∃ b1, putPostInc (⟨3, 2, 1, [7, 8, 9]⟩ : CRingBuffer Int) 5 = some b1 ∧ WellFormed b1) ∧
    WellFormed (setWriteIdx (⟨3, 2, 1, [7, 8, 9]⟩ : CRingBuffer Int) 0) := by
  have hb : WellFormed (⟨3, 2, 1, [7, 8, 9]⟩ : CRingBuffer Int) := by
    unfold WellFormed; decide
  have h := wellFormed_preserved 3 (by decide) (fun _ => (0 : Int))
    ⟨3, 2, 1, [7, 8, 9]⟩ hb 5 0 (by decide)
  exact ⟨hb, h.2.2.1, h.2.2.2.2.2.2.1⟩

/-- C16: with a block of `capacity` slots, `put` and `putPostInc` index inside
the block exactly when `0 ≤ writeIndex < capacity`, and `get` and `getPostInc`
exactly when `0 ≤ readIndex < capacity`; after `setWriteIdx(p)` /
`setReadIdx(p)` with `p < 0` or `p ≥ capacity` the next `put` / `get` is out
of bounds; and from `construct(c)`, `c > 0`, every sequence of calls whose
setter arguments are in `[0, c)` is defined throughout and ends in a state in
which the next `put` and `get` are in bounds. -/
theorem access_in_bounds_iff (b : CRingBuffer T) (v : T)
    (hlen : (b.m_iBuffData.length : Int) = b.m_iBuffLength) :
    ((put b v).isSome = true ↔ (0 ≤ b.m_iWriteInd ∧ b.m_iWriteInd < b.m_iBuffLength)) ∧
    ((putPostInc b v).isSome = true ↔
      (0 ≤ b.m_iWriteInd ∧ b.m_iWriteInd < b.m_iBuffLength)) ∧
    ((get b).isSome = true ↔ (0 ≤ b.m_iReadInd ∧ b.m_iReadInd < b.m_iBuffLength)) ∧
    ((getPostInc b).isSome = true ↔
      (0 ≤ b.m_iReadInd ∧ b.m_iReadInd < b.m_iBuffLength)) ∧
    (∀ p : Int, (p < 0 ∨ b.m_iBuffLength ≤ p) →
      put (setWriteIdx b p) v = none ∧ putPostInc (setWriteIdx b p) v = none ∧
      get (setReadIdx b p) = none ∧ getPostInc (setReadIdx b p) = none) ∧
    (∀ (c : Int) (init : Nat → T) (cs : List (Call T)), 0 < c →
      (∀ x ∈ cs, SetterInRange c x) →
      ∃ b0 rs b1, construct c init = some b0 ∧ run b0 cs = some (rs, b1) ∧
        (put b1 v).isSome = true ∧ (get b1).isSome = true) := by
  have hput : ∀ s : CRingBuffer T, (s.m_iBuffData.length : Int) = s.m_iBuffLength →
      ((put s v).isSome = true ↔ (0 ≤ s.m_iWriteInd ∧ s.m_iWriteInd < s.m_iBuffLength)) := by
    intro s hs
    unfold put
    rw [hs]
    split_ifs with h
    · simp [h]
    · simp only [Option.isSome_none, Bool.false_eq_true, false_iff]
      exact h
  have hget : ∀ s : CRingBuffer T, (s.m_iBuffData.length : Int) = s.m_iBuffLength →
      ((get s).isSome = true ↔ (0 ≤ s.m_iReadInd ∧ s.m_iReadInd < s.m_iBuffLength)) := by
    intro s hs
    unfold get
    split_ifs with h
    · rw [Option.isSome_iff_exists]
      constructor
      · rintro ⟨a, ha⟩
        have := (List.getElem?_eq_some_iff.mp ha).1
        exact ⟨h, by omega⟩
      · rintro ⟨_, h2⟩
        have hlt : s.m_iReadInd.toNat < s.m_iBuffData.length := by omega
        exact ⟨_, List.getElem?_eq_getElem hlt⟩
    · simp only [Option.isSome_none, Bool.false_eq_true, false_iff]
      omega
  have hputInc : ∀ s : CRingBuffer T,
      ((putPostInc s v).isSome = true ↔ (put s v).isSome = true) := by
    intro s
    unfold putPostInc
    cases put s v with
    | none => simp
    | some s1 => simp only [Option.isSome_some, iff_true]; split_ifs <;> rfl
  have hgetInc : ∀ s : CRingBuffer T,
      ((getPostInc s).isSome = true ↔ (get s).isSome = true) := by
    intro s
    unfold getPostInc
    cases get s with
    | none => simp
    | some x => simp only [Option.isSome_some, iff_true]; split_ifs <;> rfl
  refine ⟨hput b hlen, (hputInc b).trans (hput b hlen), hget b hlen,
    (hgetInc b).trans (hget b hlen), ?_, ?_⟩
  · intro p hp
    have h1 : ¬ ((put (setWriteIdx b p) v).isSome = true) := by
      rw [hput (setWriteIdx b p) hlen]
      show ¬ (0 ≤ p ∧ p < b.m_iBuffLength)
      omega
    have h2 : ¬ ((putPostInc (setWriteIdx b p) v).isSome = true) := by
      rw [hputInc]; exact h1
    have h3 : ¬ ((get (setReadIdx b p)).isSome = true) := by
      rw [hget (setReadIdx b p) hlen]
      show ¬ (0 ≤ p ∧ p < b.m_iBuffLength)
      omega
    have h4 : ¬ ((getPostInc (setReadIdx b p)).isSome = true) := by
      rw [hgetInc]; exact h3
    simp only [Bool.not_eq_true, Option.not_isSome, Option.isNone_iff_eq_none] at h1 h2 h3 h4
    exact ⟨h1, h2, h3, h4⟩
  · intro c init cs hc hall
    obtain ⟨b0, h0, hw0, hL0⟩ := wellFormed_construct c hc init
    obtain ⟨rs, b1, hr, hw1, _⟩ := wellFormed_run cs b0 hw0 (by rw [hL0]; exact hall)
    exact ⟨b0, rs, b1, h0, hr, (hput b1 hw1.1).mpr hw1.2.2.1, (hget b1 hw1.1).mpr hw1.2.2.2⟩

/-- C16 on a block of 3 slots: in bounds at cursor 2, out of bounds after
`setWriteIdx(3)` and after `setReadIdx(-1)`. -/
theorem access_in_bounds_iff_witness :
    (put (⟨3, 2, 2, [7, 8, 9]⟩ : CRingBuffer Int) 5).isSome = true ∧
    put (setWriteIdx (⟨3, 2, 2, [7, 8, 9]⟩ : CRingBuffer Int) 3) 5 = none ∧
    get (setReadIdx (⟨3, 2, 2, [7, 8, 9]⟩ : CRingBuffer Int) (-1)) = none := by
  have h := access_in_bounds_iff (⟨3, 2, 2, [7, 8, 9]⟩ : CRingBuffer Int) 5 (by decide)
  exact ⟨h.1.mpr (by decide), (h.2.2.2.2.1 3 (by decide)).1,
    (h.2.2.2.2.1 (-1) (by decide)).2.2.1⟩

/-- C17: on a well-formed state, `put(v)` and `putPostInc(v)` are defined and
leave `readIndex`, `capacity` and every slot other than the one at the old
`writeIndex` as they were (`put` also leaves `writeIndex`); `get()` leaves the
whole state and `getPostInc()` leaves `writeIndex`, `capacity` and every slot
as they were; `setWriteIdx` changes only `writeIndex` and `setReadIdx` only
`readIndex`. -/
theorem frame_of_calls (b : CRingBuffer T) (hb : WellFormed b) (v : T) (p : Int) :
    (∃ b1, put b v = some b1 ∧ b1.m_iReadInd = b.m_iReadInd ∧
      b1.m_iWriteInd = b.m_iWriteInd ∧ b1.m_iBuffLength = b.m_iBuffLength ∧
      b1.m_iBuffData.length = b.m_iBuffData.length ∧
      ∀ i : Nat, i ≠ b.m_iWriteInd.toNat → b1.m_iBuffData[i]? = b.m_iBuffData[i]?) ∧
    (∃ b1, putPostInc b v = some b1 ∧ b1.m_iReadInd = b.m_iReadInd ∧
      b1.m_iBuffLength = b.m_iBuffLength ∧
      b1.m_iBuffData.length = b.m_iBuffData.length ∧
      ∀ i : Nat, i ≠ b.m_iWriteInd.toNat → b1.m_iBuffData[i]? = b.m_iBuffData[i]?) ∧
    (∃ x, exec b Call.get = some (Ret.value x, b)) ∧
    (∃ x b1, getPostInc b = some (x, b1) ∧ b1.m_iWriteInd = b.m_iWriteInd ∧
      b1.m_iBuffLength = b.m_iBuffLength ∧ b1.m_iBuffData = b.m_iBuffData) ∧
    setWriteIdx b p =
      { m_iBuffLength := b.m_iBuffLength, m_iWriteInd := p, m_iReadInd := b.m_iReadInd,
        m_iBuffData := b.m_iBuffData } ∧
    setReadIdx b p =
      { m_iBuffLength := b.m_iBuffLength, m_iWriteInd := b.m_iWriteInd, m_iReadInd := p,
        m_iBuffData := b.m_iBuffData } := by
  obtain ⟨b1, hp, _, _⟩ := wellFormed_put b v hb
  obtain ⟨b2, hpp, _, _⟩ := wellFormed_putPostInc b v hb
  obtain ⟨x, hg⟩ := wellFormed_get b hb
  obtain ⟨y, b3, hgp, _, _⟩ := wellFormed_getPostInc b hb
  have e1 := put_some b b1 v hp
  have e2 := putPostInc_some b b2 v hpp
  have e3 := getPostInc_some b b3 y hgp
  refine ⟨⟨b1, hp, ?_, ?_, ?_, ?_, ?_⟩, ⟨b2, hpp, e2.2.1, e2.1, ?_, ?_⟩, ⟨x, ?_⟩,
    ⟨y, b3, hgp, e3.2.1, e3.1, e3.2.2.1⟩, rfl, rfl⟩
  · rw [e1]
  · rw [e1]
  · rw [e1]
  · rw [e1]; simp only [List.length_set]
  · intro i hi
    rw [e1]
    exact List.getElem?_set_ne (Ne.symm hi)
  · rw [e2.2.2]; simp only [List.length_set]
  · intro i hi
    rw [e2.2.2]
    exact List.getElem?_set_ne (Ne.symm hi)
  · simp only [exec, hg, Option.map_some']

/-- C17 on a block of 3 slots holding 7, 8, 9, write cursor 2, read cursor 1. -/
theorem frame_of_calls_witness :
    (∃ b1, putPostInc (⟨3, 2, 1, [7, 8, 9]⟩ : CRingBuffer Int) 5 = some b1 ∧
      b1.m_iReadInd = 1 ∧ b1.m_iBuffLength = 3 ∧
      b1.m_iBuffData[0]? = some 7 ∧ b1.m_iBuffData[1]? = some 8) ∧
    (∃ x b1, getPostInc (⟨3, 2, 1, [7, 8, 9]⟩ : CRingBuffer Int) = some (x, b1) ∧
      b1.m_iWriteInd = 2 ∧ b1.m_iBuffLength = 3 ∧ b1.m_iBuffData = [7, 8, 9]) := by
  have hb : WellFormed (⟨3, 2, 1, [7, 8, 9]⟩ : CRingBuffer Int) := by
    unfold WellFormed; decide
  have h := frame_of_calls (⟨3, 2, 1, [7, 8, 9]⟩ : CRingBuffer Int) hb 5 0
  obtain ⟨b1, h1, hr, hL, _, hd⟩ := h.2.1
  exact ⟨⟨b1, h1, hr, hL, hd 0 (by decide), hd 1 (by decide)⟩, h.2.2.2.1⟩

/-- C18: for every state with capacity `c > 0`, wherever its cursors are,
`reset()` produces the state `construct(c)` produces (for the same outcome
`init` of the allocation `new T[c]`, which both perform); so a `reset()` after
a `reset()` produces what the second one alone produces, and `reset()` is
idempotent. -/
theorem reset_eq_construct (b : CRingBuffer T) (init : Nat → T)
    (hc : 0 < b.m_iBuffLength) :
    construct b.m_iBuffLength init = some (reset b init) ∧
    (∀ init1 : Nat → T, reset (reset b init1) init = reset b init) ∧
    reset (reset b init) init = reset b init :=
  ⟨if_pos hc, fun _ => rfl, rfl⟩

/-- C18 on a state of capacity 3 whose cursors were set out of range. -/
theorem reset_eq_construct_witness :
    construct 3 (fun _ => (0 : Int)) =
      some (reset (⟨3, 9, -4, [7, 8, 9]⟩ : CRingBuffer Int) (fun _ => 0)) ∧
    reset (reset (⟨3, 9, -4, [7, 8, 9]⟩ : CRingBuffer Int) (fun _ => 0)) (fun _ => 0) =
      reset (⟨3, 9, -4, [7, 8, 9]⟩ : CRingBuffer Int) (fun _ => 0) := by
  have h := reset_eq_construct (⟨3, 9, -4, [7, 8, 9]⟩ : CRingBuffer Int) (fun _ => 0)
    (by decide)
  exact ⟨h.1, h.2.2⟩

theorem succ_mod_eq (m n : Nat) (hn : 0 < n) :
    (m + 1) % n = if m % n + 1 = n then 0 else m % n + 1 := by
  have hlt := Nat.mod_lt m hn
  rw [Nat.add_mod]
  by_cases h1 : n = 1
  · subst h1
    simp [Nat.mod_one]
  · have h1' : 1 % n = 1 := Nat.mod_eq_of_lt (by omega)
    rw [h1']
    split_ifs with h
    · rw [h, Nat.mod_self]
    · exact Nat.mod_eq_of_lt (by omega)

theorem mod_ne_of_lt_add (i m n : Nat) (h1 : i < m) (h2 : m < i + n) :
    i % n ≠ m % n := by
  intro h
  have h3 : (m - i) % n = 0 := Nat.sub_mod_eq_zero_of_mod_eq h.symm
  have h4 : n ∣ m - i := Nat.dvd_of_mod_eq_zero h3
  have h5 := Nat.le_of_dvd (by omega) h4
  omega

theorem written_construct (c : Int) (hc : 0 < c) (init : Nat → T) :
    ∃ b, construct c init = some b ∧ Written c.toNat b [] := by
  refine ⟨_, if_pos hc, ?_, ?_, rfl, ?_, ?_⟩
  · show c = (c.toNat : Int)
    omega
  · simp [newArray_length]
  · simp
  · intro i hi; simp at hi

theorem written_putPostInc (n : Nat) (hn : 0 < n) (b : CRingBuffer T) (l : List T) (v : T)
    (h : Written n b l) :
    ∃ b1, putPostInc b v = some b1 ∧ Written n b1 (l ++ [v]) := by
  obtain ⟨hL, hD, hr, hw, hdata⟩ := h
  have hlt := Nat.mod_lt l.length hn
  have hlen : (b.m_iBuffData.length : Int) = b.m_iBuffLength := by rw [hL, hD]
  have hwr : 0 ≤ b.m_iWriteInd ∧ b.m_iWriteInd < b.m_iBuffLength := by
    rw [hw, hL]; omega
  refine ⟨_, putPostInc_eq b v hlen hwr, hL, ?_, hr, ?_, ?_⟩
  · simp [hD]
  · simp only [hw, hL, List.length_append, List.length_singleton, succ_mod_eq l.length n hn]
    split_ifs <;> omega
  · intro i hi hin
    simp only [List.length_append, List.length_singleton] at hi hin
    simp only [hw, Int.toNat_ofNat]
    by_cases hil : i < l.length
    · have hne : l.length % n ≠ i % n :=
        Ne.symm (mod_ne_of_lt_add i l.length n hil (by omega))
      rw [List.getElem?_set_ne hne, hdata i hil (by omega), List.getElem?_append_left hil]
    · have hil2 : i = l.length := by omega
      subst hil2
      rw [List.getElem?_set_self (by rw [hD]; exact hlt)]
      simp

theorem written_putPostIncAll (n : Nat) (hn : 0 < n) (vs : List T) :
    ∀ (b : CRingBuffer T) (l : List T), Written n b l →
      ∃ b1, putPostIncAll b vs = some b1 ∧ Written n b1 (l ++ vs) := by
  induction vs with
  | nil => intro b l h; exact ⟨b, rfl, by simpa using h⟩
  | cons v vs ih =>
    intro b l h
    obtain ⟨b1, hp, h1⟩ := written_putPostInc n hn b l v h
    obtain ⟨b2, hp2, h2⟩ := ih b1 (l ++ [v]) h1
    refine ⟨b2, ?_, by simpa using h2⟩
    simp only [putPostIncAll, hp, hp2]

/-- Reads from a block of `n` slots that do not pass the last slot return the
slots from the read cursor on, in slot order. -/
theorem getPostIncN_slots (n : Nat) (j : Nat) :
    ∀ (b : CRingBuffer T) (r : Nat), b.m_iBuffLength = n → b.m_iBuffData.length = n →
      b.m_iReadInd = r → r + j ≤ n →
      ∃ b1, getPostIncN b j = some ((b.m_iBuffData.drop r).take j, b1) := by
  induction j with
  | zero => intro b r _ _ _ _; exact ⟨b, by simp [getPostIncN]⟩
  | succ j ih =>
    intro b r hL hD hr hj
    have hlen : (b.m_iBuffData.length : Int) = b.m_iBuffLength := by rw [hL, hD]
    obtain ⟨x, hx, hg⟩ := getPostInc_eq b hlen (by rw [hr, hL]; omega)
    rw [hr, Int.toNat_ofNat] at hx
    have hrl : r < b.m_iBuffData.length := by omega
    have hx2 : x = b.m_iBuffData[r] := by
      rw [List.getElem?_eq_getElem hrl] at hx
      exact (Option.some.inj hx).symm
    have htake : (b.m_iBuffData.drop r).take (j + 1) =
        x :: (b.m_iBuffData.drop (r + 1)).take j := by
      rw [List.drop_eq_getElem_cons hrl, List.take_succ_cons, hx2]
    by_cases hlast : r + 1 = n
    · have hj0 : j = 0 := by omega
      subst hj0
      refine ⟨{ b with
        m_iReadInd := if b.m_iReadInd + 1 = b.m_iBuffLength then 0 else b.m_iReadInd + 1 }, ?_⟩
      simp only [getPostIncN, hg, htake, List.take_zero]
    · have hne : ¬ (b.m_iReadInd + 1 = b.m_iBuffLength) := by rw [hr, hL]; omega
      simp only [hne, if_false] at hg
      obtain ⟨b2, hg2⟩ := ih { b with m_iReadInd := b.m_iReadInd + 1 } (r + 1) hL hD
        (by simp [hr]) (by omega)
      exact ⟨b2, by simp only [getPostIncN, hg, hg2, htake]⟩

/-- C19: on a freshly constructed buffer of capacity `c > 0`, any number `m`
of `putPostInc` calls is defined; afterwards `writeIndex == m mod c`, the read
cursor is still `0`, and every slot `j < min(m, c)` holds `v_i` for the largest
`i < m` with `i mod c == j`, which is one of the last `c` positions written
(so the first `m - c` values are gone when `m > c`); `c` subsequent
`getPostInc()` calls return the slot contents in slot order. -/
theorem overrun_overwrites_oldest (c : Int) (hc : 0 < c) (init : Nat → T) (vs : List T) :
    ∃ b0 b1, construct c init = some b0 ∧ putPostIncAll b0 vs = some b1 ∧
      getWriteIdx b1 = (vs.length : Int) % c ∧ getReadIdx b1 = 0 ∧
      (∀ j : Nat, j < vs.length → (j : Int) < c →
        ∃ i : Nat, i < vs.length ∧ (i : Int) % c = (j : Int) ∧
          (∀ k : Nat, k < vs.length → (k : Int) % c = (j : Int) → k ≤ i) ∧
          (vs.length : Int) ≤ (i : Int) + c ∧
          b1.m_iBuffData[j]? = vs[i]?) ∧
      ∃ b2, getPostIncN b1 c.toNat = some (b1.m_iBuffData, b2) := by
  have hn : 0 < c.toNat := by omega
  have hcn : ((c.toNat : Nat) : Int) = c := by omega
  obtain ⟨b0, h0, hw0⟩ := written_construct c hc init
  obtain ⟨b1, h1, hw1⟩ := written_putPostIncAll c.toNat hn vs b0 [] hw0
  simp only [List.nil_append] at hw1
  obtain ⟨hL, hD, hr, hw, hdata⟩ := hw1
  have hmod : ∀ k j : Nat, ((k : Int) % c = (j : Int)) ↔ k % c.toNat = j := by
    intro k j
    rw [← hcn]
    constructor
    · intro h; exact_mod_cast h
    · intro h; exact_mod_cast h
  refine ⟨b0, b1, h0, h1, ?_, hr, ?_, ?_⟩
  · rw [getWriteIdx, hw, Int.natCast_mod, hcn]
  · intro j hjm hjc
    have hjn : j < c.toNat := by omega
    have hPj : j % c.toNat = j := Nat.mod_eq_of_lt hjn
    have hjb : j ≤ vs.length - 1 := by omega
    have hspec : Nat.findGreatest (fun i => i % c.toNat = j) (vs.length - 1) % c.toNat = j :=
      Nat.findGreatest_spec (P := fun i => i % c.toNat = j) hjb hPj
    have hle : Nat.findGreatest (fun i => i % c.toNat = j) (vs.length - 1) ≤ vs.length - 1 :=
      Nat.findGreatest_le _
    have hmax : ∀ k : Nat, k < vs.length → k % c.toNat = j →
        k ≤ Nat.findGreatest (fun i => i % c.toNat = j) (vs.length - 1) := by
      intro k hk hkj
      exact Nat.le_findGreatest (P := fun i => i % c.toNat = j) (by omega) hkj
    generalize Nat.findGreatest (fun i => i % c.toNat = j) (vs.length - 1) = i at hspec hle hmax
    have hlast : vs.length ≤ i + c.toNat := by
      by_contra hcon
      have h2 := hmax (i + c.toNat) (by omega) (by rw [Nat.add_mod_right]; exact hspec)
      omega
    refine ⟨i, by omega, (hmod i j).mpr hspec, ?_, by omega, ?_⟩
    · intro k hk hkj
      exact hmax k hk ((hmod k j).mp hkj)
    · have := hdata i (by omega) hlast
      rw [hspec] at this
      exact this
  · obtain ⟨b2, h2⟩ := getPostIncN_slots c.toNat c.toNat b1 0 hL hD (by simpa using hr) (by omega)
    refine ⟨b2, ?_⟩
    rw [h2, List.drop_zero, List.take_of_length_le (by omega)]

/-- C19 at capacity 3 with the values 1, 2, 3, 4: the write cursor is `1`, the
slots hold 4, 2, 3, the value 1 is gone, and three reads return 4, 2, 3, which
is not the order 2, 3, 4 in which the surviving values were written. -/
theorem overrun_overwrites_oldest_witness :
    ∃ b0 b1 b2 : CRingBuffer Int, construct 3 (fun _ => 0) = some b0 ∧
      putPostIncAll b0 [1, 2, 3, 4] = some b1 ∧ getWriteIdx b1 = 1 ∧
      b1.m_iBuffData = [4, 2, 3] ∧ getPostIncN b1 3 = some ([4, 2, 3], b2) ∧
      ([4, 2, 3] : List Int) ≠ [2, 3, 4] := by
  obtain ⟨b0, b1, h0, h1, hw, _, _, b2, h2⟩ :=
    overrun_overwrites_oldest 3 (by decide) (fun _ => (0 : Int)) [1, 2, 3, 4]
  have e0 : b0 = ⟨3, 0, 0, [0, 0, 0]⟩ := (Option.some.inj h0).symm
  subst e0
  have e1 : b1 = ⟨3, 1, 0, [4, 2, 3]⟩ := (Option.some.inj h1).symm
  subst e1
  exact ⟨_, _, b2, h0, h1, rfl, rfl, h2, by decide⟩

/-- A sequence of `putPostInc` / `getPostInc` calls on a block of `n` slots
whose cursors are `P mod n` and `G mod n` is defined, whatever the
interleaving, and moves the cursors to `(P + puts) mod n` and
`(G + gets) mod n`. -/
theorem postInc_run_cursors (n : Nat) (hn : 0 < n) (cs : List (Call T)) :
    ∀ (b : CRingBuffer T) (P G : Nat), b.m_iBuffLength = n → b.m_iBuffData.length = n →
      b.m_iWriteInd = (P % n : Nat) → b.m_iReadInd = (G % n : Nat) →
      (∀ x ∈ cs, isPostInc x = true) →
      ∃ rs b1, run b cs = some (rs, b1) ∧ b1.m_iBuffLength = n ∧
        b1.m_iBuffData.length = n ∧
        b1.m_iWriteInd = ((P + numPuts cs) % n : Nat) ∧
        b1.m_iReadInd = ((G + numGets cs) % n : Nat) := by
  induction cs with
  | nil =>
    intro b P G hL hD hw hr _
    exact ⟨[], b, rfl, hL, hD, by simpa [numPuts, putValues] using hw,
      by simpa [numGets] using hr⟩
  | cons x cs ih =>
    intro b P G hL hD hw hr hall
    have htail : ∀ y ∈ cs, isPostInc y = true := fun y hy => hall y (List.mem_cons_of_mem _ hy)
    have hhead := hall x (List.mem_cons_self _ _)
    have hlen : (b.m_iBuffData.length : Int) = b.m_iBuffLength := by rw [hL, hD]
    have hPlt := Nat.mod_lt P hn
    have hGlt := Nat.mod_lt G hn
    cases x with
    | putPostInc v =>
      have hp := putPostInc_eq b v hlen (by rw [hw, hL]; omega)
      have hwn : (if b.m_iWriteInd + 1 = b.m_iBuffLength then (0 : Int)
          else b.m_iWriteInd + 1) = (((P + 1) % n : Nat) : Int) := by
        rw [succ_mod_eq P n hn, hw, hL]
        by_cases h : P % n + 1 = n
        · rw [if_pos h, if_pos (by exact_mod_cast h)]; rfl
        · rw [if_neg h, if_neg (by exact_mod_cast h)]; push_cast; rfl
      rw [hwn] at hp
      obtain ⟨rs, b2, hr2, hL2, hD2, hw2, hrd2⟩ := ih
        { b with
          m_iBuffData := b.m_iBuffData.set b.m_iWriteInd.toNat v
          m_iWriteInd := (((P + 1) % n : Nat) : Int) }
        (P + 1) G hL (by simp [hD]) rfl hr htail
      refine ⟨Ret.void :: rs, b2, ?_, hL2, hD2, ?_, ?_⟩
      · simp only [run, exec, hp, Option.map_some', hr2]
      · rw [hw2]; simp only [numPuts, putValues, List.length_cons]
        rw [show P + 1 + (putValues cs).length = P + ((putValues cs).length + 1) by omega]
      · rw [hrd2]; simp only [numGets]
    | getPostInc =>
      obtain ⟨y, _, hg⟩ := getPostInc_eq b hlen (by rw [hr, hL]; omega)
      have hrn : (if b.m_iReadInd + 1 = b.m_iBuffLength then (0 : Int)
          else b.m_iReadInd + 1) = (((G + 1) % n : Nat) : Int) := by
        rw [succ_mod_eq G n hn, hr, hL]
        by_cases h : G % n + 1 = n
        · rw [if_pos h, if_pos (by exact_mod_cast h)]; rfl
        · rw [if_neg h, if_neg (by exact_mod_cast h)]; push_cast; rfl
      rw [hrn] at hg
      obtain ⟨rs, b2, hr2, hL2, hD2, hw2, hrd2⟩ := ih
        { b with m_iReadInd := (((G + 1) % n : Nat) : Int) }
        P (G + 1) hL hD hw rfl htail
      refine ⟨Ret.value y :: rs, b2, ?_, hL2, hD2, ?_, ?_⟩
      · simp only [run, exec, hg, Option.map_some', hr2]
      · rw [hw2]; simp only [numPuts, putValues]
      · rw [hrd2]; simp only [numGets]
        rw [show G + 1 + numGets cs = G + (numGets cs + 1) by omega]
    | put v => simp [isPostInc] at hhead
    | get => simp [isPostInc] at hhead
    | reset i => simp [isPostInc] at hhead
    | getWriteIdx => simp [isPostInc] at hhead
    | setWriteIdx i => simp [isPostInc] at hhead
    | getReadIdx => simp [isPostInc] at hhead
    | setReadIdx i => simp [isPostInc] at hhead
    | getNumValuesInBuffer => simp [isPostInc] at hhead
    | getLength => simp [isPostInc] at hhead

/-- C20: on a freshly constructed buffer of capacity `c > 0` (an `int`), every
sequence of `putPostInc` and `getPostInc` calls, in any interleaving, is
defined, and with `p` the number of `putPostInc` and `g` the number of
`getPostInc` calls `getNumValuesInBuffer()` then returns
`(p mod c) - (g mod c)`; this is congruent to `p - g` modulo `c` and lies
strictly between `-c` and `c`. -/
theorem getNumValuesInBuffer_mod (c : Int) (hc : 0 < c) (hc32 : c < 2147483648)
    (init : Nat → T) (cs : List (Call T)) (hcalls : ∀ x ∈ cs, isPostInc x = true) :
    ∃ b0 rs b1, construct c init = some b0 ∧ run b0 cs = some (rs, b1) ∧
      getNumValuesInBuffer b1 = (numPuts cs : Int) % c - (numGets cs : Int) % c ∧
      (getNumValuesInBuffer b1 - ((numPuts cs : Int) - (numGets cs : Int))) % c = 0 ∧
      -c < getNumValuesInBuffer b1 ∧ getNumValuesInBuffer b1 < c := by
  have hn : 0 < c.toNat := by omega
  have hcn : ((c.toNat : Nat) : Int) = c := by omega
  obtain ⟨b0, h0, hh0, hr0, hw0, hL0⟩ := holds_construct c hc init
  obtain ⟨rs, b1, hr, _, _, hw1, hr1⟩ := postInc_run_cursors c.toNat hn cs b0 0 0
    (by rw [hL0, hcn]) hh0.2.1 (by simpa using hw0) (by simpa using hr0) hcalls
  simp only [zero_add] at hw1 hr1
  rw [Int.natCast_mod, hcn] at hw1 hr1
  have hp0 := Int.emod_nonneg (numPuts cs : Int) (ne_of_gt hc)
  have hp1 := Int.emod_lt_of_pos (numPuts cs : Int) hc
  have hg0 := Int.emod_nonneg (numGets cs : Int) (ne_of_gt hc)
  have hg1 := Int.emod_lt_of_pos (numGets cs : Int) hc
  have hval : getNumValuesInBuffer b1 = (numPuts cs : Int) % c - (numGets cs : Int) % c := by
    rw [getNumValuesInBuffer, hw1, hr1]
    exact wrapInt32_eq _ (by omega) (by omega)
  refine ⟨b0, rs, b1, h0, hr, hval, ?_, by rw [hval]; omega, by rw [hval]; omega⟩
  rw [hval]
  have e : (numPuts cs : Int) % c - (numGets cs : Int) % c -
      ((numPuts cs : Int) - (numGets cs : Int)) =
      c * ((numGets cs : Int) / c - (numPuts cs : Int) / c) := by
    have e1 := Int.emod_add_ediv (numPuts cs : Int) c
    have e2 := Int.emod_add_ediv (numGets cs : Int) c
    linarith
  rw [e, Int.mul_emod_right]

/-- C20 at capacity 3: four writes and two reads, interleaved; the method
returns `(4 mod 3) - (2 mod 3) = -1`. -/
theorem getNumValuesInBuffer_mod_witness :
    ∃ (b0 : CRingBuffer Int) (rs : List (Ret Int)) (b1 : CRingBuffer Int),
      construct 3 (fun _ => 0) = some b0 ∧
      run b0 [Call.putPostInc 1, Call.getPostInc, Call.putPostInc 2, Call.putPostInc 3,
        Call.getPostInc, Call.putPostInc 4] = some (rs, b1) ∧
      getNumValuesInBuffer b1 = -1 := by
  obtain ⟨b0, rs, b1, h0, hr, hv, _⟩ :=
    getNumValuesInBuffer_mod 3 (by decide) (by decide) (fun _ => (0 : Int))
      [Call.putPostInc 1, Call.getPostInc, Call.putPostInc 2, Call.putPostInc 3,
        Call.getPostInc, Call.putPostInc 4]
      (by simp [isPostInc])
  refine ⟨b0, rs, b1, h0, hr, ?_⟩
  rw [hv]
  decide

end CRingBuffer
